import Mathlib

/-!
Verification development for the RestrictedYAML ("Deterministic YAML") core.

Python strings are modelled as `List Char` (Unicode scalar values, matching
Python `str` for all non-surrogate text).  Machine integers do not occur;
Python `int` is unbounded and is modelled as `Int`.  The CRC-32 state is a
natural number kept below `2 ^ 32` by explicit masking, exactly as
`zlib.crc32(...) & 0xffffffff` does.

The embedded functions mirror, statement by statement:
  lib/deterministic_yaml.py   (DeterministicYAML: needs_quotes, escape_string,
                               canonicalize_number, to_deterministic_yaml, validate)
  dyaml/core/crc32.py         (calculate_crc32, extract_crc32, add_crc32, validate_crc32)
  dyaml/core/validator.py     (validate_string, _validate_structure, _is_inside_quotes)
  dyaml/core/converter.py     (consolidate_comments, add_human_fields,
                               convert_yaml_to_deterministic, add_crc32_to_human_fields,
                               strip_human_fields)
  dyaml/core/schema.py        (_calculate_parity, _validate_parity,
                               _apply_encoding_instruction, _get_encoding_instructions,
                               apply_encoding_instructions, validate_encoding_instructions)

The generic YAML parse (`yaml.safe_load`) is an external library; functions
that call it take the parse outcome as an explicit argument
(`Except error-text Value`, where the Python value `None` is `Value.vnull`).
-/

/-- The characters of a Lean string literal, as the model of a Python `str`. -/
def chars (s : String) : List Char := s.data

def dquote : Char := Char.ofNat 34

def squote : Char := Char.ofNat 39

def bslash : Char := Char.ofNat 92

def btick : Char := Char.ofNat 96

def lbrace : Char := Char.ofNat 123

def rbrace : Char := Char.ofNat 125

/-- Python `str.isspace` for a single character (the Unicode whitespace set
Python uses both for `isspace` and for bare `str.strip`). -/
def pyIsSpace (c : Char) : Bool :=
  c = ' ' || c = '\t' || c = '\n' || c = '\r' ||
  c.toNat = 11 || c.toNat = 12 ||
  (28 ≤ c.toNat && c.toNat ≤ 31) ||
  c.toNat = 133 || c.toNat = 160 || c.toNat = 0x1680 ||
  (0x2000 ≤ c.toNat && c.toNat ≤ 0x200a) ||
  c.toNat = 0x2028 || c.toNat = 0x2029 || c.toNat = 0x202f ||
  c.toNat = 0x205f || c.toNat = 0x3000

/-- Python `s.lstrip()`. -/
def pyLstrip (s : List Char) : List Char := s.dropWhile pyIsSpace

/-- Python `s.rstrip()`. -/
def pyRstrip (s : List Char) : List Char := (s.reverse.dropWhile pyIsSpace).reverse

/-- Python `s.strip()`. -/
def pyStrip (s : List Char) : List Char := pyRstrip (pyLstrip s)

/-- Python `s.split(sep)` for a one-character separator: always returns at
least one piece. -/
def splitOnChar (sep : Char) : List Char → List (List Char)
  | [] => [[]]
  | a :: rest =>
    let r := splitOnChar sep rest
    if a = sep then [] :: r
    else
      match r with
      | [] => [[a]]
      | h :: t => (a :: h) :: t

/-- Python `sep.join(pieces)`. -/
def joinSep (sep : List Char) : List (List Char) → List Char
  | [] => []
  | [p] => p
  | p :: rest => p ++ sep ++ joinSep sep rest

/-- Python `str(n)` for a natural number. -/
def natStr (n : Nat) : List Char := (Nat.repr n).data

/-- Python `str(n)` for an `int`. -/
def intStr : Int → List Char
  | Int.ofNat n => natStr n
  | Int.negSucc n => '-' :: natStr (n + 1)

/-- Python lexicographic (code-point) `<` on strings. -/
def pyStrLt : List Char → List Char → Bool
  | [], [] => false
  | [], _ :: _ => true
  | _ :: _, [] => false
  | a :: as, b :: bs =>
    if a.toNat < b.toNat then true
    else if b.toNat < a.toNat then false
    else pyStrLt as bs

/-- The rendering Python `str(value)` produces for a finite float: the model
carries that decimal text abstractly (`fdec`), since Python float formatting
is external to this core; the three special values are explicit. -/
inductive FloatRepr where
  | fnan : FloatRepr
  | finf : FloatRepr
  | fninf : FloatRepr
  | fdec : List Char → FloatRepr
deriving DecidableEq

mutual
/-- The value-tree model: Python `None | bool | int | float | str | list | dict`
as produced by the external parser and consumed by every core operation.
Mapping keys are text (Python `dict` keys, via `str(key)`); a dict from the
Python runtime never holds two entries with the same key. -/
inductive Value where
  | vnull : Value
  | vbool : Bool → Value
  | vint : Int → Value
  | vfloat : FloatRepr → Value
  | vstr : List Char → Value
  | vlist : ValueSeq → Value
  | vdict : EntrySeq → Value
deriving DecidableEq
/-- A sequence of values (a Python `list`). -/
inductive ValueSeq where
  | nil : ValueSeq
  | cons : Value → ValueSeq → ValueSeq
deriving DecidableEq
/-- The ordered entries of a mapping (a Python `dict`, insertion order). -/
inductive EntrySeq where
  | nil : EntrySeq
  | cons : List Char → Value → EntrySeq → EntrySeq
deriving DecidableEq
end

/-- `DeterministicYAML.YAML_INDICATORS`: the character set
`set(': # | > - { } [ ] & * ! % @ `')` — note it contains the space and
does NOT contain either quote character. -/
def YAML_INDICATORS : List Char :=
  [':', ' ', '#', '|', '>', '-', lbrace, rbrace, '[', ']', '&', '*', '!', '%', '@', btick]

/-- `DeterministicYAML.YAML_START_INDICATORS`:
`set('- ? : [ ] { } ! * & # | > \' " % @')`. -/
def YAML_START_INDICATORS : List Char :=
  ['-', ' ', '?', ':', '[', ']', lbrace, rbrace, '!', '*', '&', '#', '|', '>',
   squote, dquote, '%', '@']

/-- One or more ASCII decimal digits (`[0-9]+`). -/
def allDigits1 (v : List Char) : Bool := !v.isEmpty && v.all (fun c => c.isDigit)

/-- `INTEGER_PATTERN = re.compile(r'^-?[0-9]+$')` (full match). -/
def INTEGER_PATTERN (v : List Char) : Bool :=
  match v with
  | '-' :: rest => allDigits1 rest
  | _ => allDigits1 v

/-- `FLOAT_PATTERN = re.compile(r'^-?[0-9]+\.[0-9]+$')` (full match). -/
def FLOAT_PATTERN (v : List Char) : Bool :=
  let w := match v with
    | '-' :: rest => rest
    | _ => v
  let ds := w.takeWhile (fun c => c.isDigit)
  let rest := w.dropWhile (fun c => c.isDigit)
  !ds.isEmpty &&
    (match rest with
     | '.' :: r2 => allDigits1 r2
     | _ => false)

/-- `LEADING_ZERO_PATTERN = re.compile(r'^0[0-9]')` (prefix match). -/
def LEADING_ZERO_PATTERN (v : List Char) : Bool :=
  match v with
  | '0' :: c :: _ => c.isDigit
  | _ => false

/-- `re.match(r'^0[oOxX]', value)` (prefix match). -/
def OCTHEX_PATTERN (v : List Char) : Bool :=
  match v with
  | '0' :: c :: _ => c = 'o' || c = 'O' || c = 'x' || c = 'X'
  | _ => false

/-- `TIMESTAMP_PATTERN = re.compile(r'^\d{4}-\d{2}-\d{2}')` (prefix match;
`\d` modelled as the ASCII digits it matches on this data). -/
def TIMESTAMP_PATTERN (v : List Char) : Bool :=
  match v with
  | a :: b :: c :: d :: '-' :: e :: f :: '-' :: g :: h :: _ =>
    a.isDigit && b.isDigit && c.isDigit && d.isDigit &&
    e.isDigit && f.isDigit && g.isDigit && h.isDigit
  | _ => false

/-- `re.match(r'^\.\d', value)` (prefix match). -/
def DOTDIGIT_PATTERN (v : List Char) : Bool :=
  match v with
  | '.' :: c :: _ => c.isDigit
  | _ => false

/-- The `special_values` set in `needs_quotes`. -/
def SPECIAL_VALUES : List (List Char) :=
  [chars "true", chars "false", chars "null", chars "yes", chars "no",
   chars "on", chars "off", chars "Yes", chars "No", chars "ON", chars "OFF",
   chars "True", chars "False", chars "NULL",
   chars ".nan", chars ".inf", chars "+.inf", chars "-.inf", chars "~"]

/-- `re.match(r'^-?\d+\.?\d*[eE][+-]?\d+$', value)` (full match). -/
def EXP_PATTERN (v : List Char) : Bool :=
  let w := match v with
    | '-' :: rest => rest
    | _ => v
  let ds := w.takeWhile (fun c => c.isDigit)
  let r1 := w.dropWhile (fun c => c.isDigit)
  let r2 := match r1 with
    | '.' :: t => t
    | _ => r1
  let r3 := r2.dropWhile (fun c => c.isDigit)
  !ds.isEmpty &&
    (match r3 with
     | e :: r4 =>
       (e = 'e' || e = 'E') &&
         (match r4 with
          | s :: t => if s = '+' || s = '-' then allDigits1 t else allDigits1 r4
          | [] => false)
     | [] => false)

/-- `DeterministicYAML.needs_quotes`, check by check in source order
(`value[0]` is `headD`, well-defined because the empty string returned
already in the first check). -/
def needs_quotes (value : List Char) : Bool :=
  if value.isEmpty then true
  else if value.any (fun c => YAML_INDICATORS.contains c) then true
  else if YAML_START_INDICATORS.contains (value.headD ' ') then true
  else if pyIsSpace (value.headD ' ') || pyIsSpace (value.getLastD (value.headD ' ')) then true
  else if value.contains '\n' || value.contains '\r' then true
  else if INTEGER_PATTERN value then true
  else if FLOAT_PATTERN value then true
  else if LEADING_ZERO_PATTERN value then true
  else if value.contains '_' && INTEGER_PATTERN (value.filter (fun c => c ≠ '_')) then true
  else if value.headD ' ' = '+' then true
  else if OCTHEX_PATTERN value then true
  else if TIMESTAMP_PATTERN value then true
  else if DOTDIGIT_PATTERN value then true
  else if SPECIAL_VALUES.contains value then true
  else if (value.map Char.toLower).contains 'e' && EXP_PATTERN value then true
  else false

/-- Two lowercase hex digits, as `format(n, '02x')` produces for `n < 256`. -/
def hex2 (n : Nat) : List Char :=
  [Nat.digitChar (n / 16), Nat.digitChar (n % 16)]

/-- `DeterministicYAML.escape_string`. -/
def escape_string (value : List Char) : List Char :=
  (value.map (fun c =>
    if c = bslash then [bslash, bslash]
    else if c = dquote then [bslash, dquote]
    else if c = '\n' then [bslash, 'n']
    else if c = '\t' then [bslash, 't']
    else if c.toNat < 32 then bslash :: 'x' :: hex2 c.toNat
    else [c])).flatten

/-- The integer branch of `DeterministicYAML.canonicalize_number`
(`str(value)` for a Python `int`). -/
def canonicalize_int (n : Int) : List Char := intStr n

/-- The float branch of `DeterministicYAML.canonicalize_number`: special
values render as quoted sentinels, a finite value starts from its Python
`str(...)` text (the `fdec` field) and is normalized. -/
def canonicalize_float : FloatRepr → List Char
  | .fnan => dquote :: chars ".nan" ++ [dquote]
  | .finf => dquote :: chars ".inf" ++ [dquote]
  | .fninf => dquote :: chars "-.inf" ++ [dquote]
  | .fdec s =>
    if (s.map Char.toLower).contains 'e' then dquote :: s ++ [dquote]
    else
      let s1 := if s.head? = some '.' then '0' :: s else s
      let s2 :=
        if s1.contains '.' && s1.getLast? = some '.' then s1 ++ ['0']
        else if !s1.contains '.' then s1 ++ chars ".0"
        else s1
      if s2.contains '.' then
        match splitOnChar '.' s2 with
        | [ip, dp] =>
          let dp2 := (dp.reverse.dropWhile (fun c => c = '0')).reverse
          ip ++ '.' :: (if dp2.isEmpty then ['0'] else dp2)
        | _ => s2
      else s2

/-- `re.match(r'^[A-Za-z0-9_]+$', key_str)`: the restricted identifier
pattern for unquoted mapping keys. -/
def identKey (k : List Char) : Bool :=
  !k.isEmpty && k.all (fun c => c.isAlphanum || c = '_')

/-- `'  ' * indent`. -/
def indentStr (indent : Nat) : List Char := List.replicate (2 * indent) ' '

/-- One mapping entry after the recursive rendering of its value: the key,
whether the value is a non-empty dict/list (`isinstance(value, (dict, list))
and value`), and the rendered value text. -/
structure RenderedEntry where
  key : List Char
  isContainer : Bool
  rendered : List Char
deriving DecidableEq

/-- Stable insertion of a rendered entry by key (Python `sorted` is stable;
with the unique keys of a Python dict the key alone decides the order). -/
def insertByKey (e : RenderedEntry) : List RenderedEntry → List RenderedEntry
  | [] => [e]
  | h :: t => if pyStrLt e.key h.key then e :: h :: t else h :: insertByKey e t

/-- `sorted(data.items())` on the rendered entries. -/
def sortRendered : List RenderedEntry → List RenderedEntry
  | [] => []
  | h :: t => insertByKey h (sortRendered t)

/-- `value if not container else key-on-own-line`: the per-entry lines of the
dict branch of `to_deterministic_yaml`. -/
def dyDictLines (indent : Nat) : List RenderedEntry → List (List Char)
  | [] => []
  | e :: rest =>
    let keyStr := if identKey e.key then e.key else dquote :: escape_string e.key ++ [dquote]
    (if e.isContainer then
      (indentStr indent ++ keyStr ++ [':']) :: splitOnChar '\n' e.rendered
     else
      [indentStr indent ++ keyStr ++ chars ": " ++ e.rendered])
    ++ dyDictLines indent rest

/-- Whether `isinstance(value, (dict, list)) and value` holds. -/
def isNonemptyContainer : Value → Bool
  | .vlist (.cons _ _) => true
  | .vdict (.cons _ _ _) => true
  | _ => false

mutual
/-- `DeterministicYAML.to_deterministic_yaml(data, indent)`: the canonical
encoder.  A dict first renders every entry recursively, then emits them
sorted by key; rendering is independent of entry order, so this equals the
source's sort-then-render. -/
def to_deterministic_yaml : Value → Nat → List Char
  | .vnull, _ => chars "null"
  | .vbool b, _ => if b then chars "true" else chars "false"
  | .vint n, _ => canonicalize_int n
  | .vfloat r, _ => canonicalize_float r
  | .vstr s, _ =>
    if needs_quotes s then dquote :: escape_string s ++ [dquote] else s
  | .vlist xs, indent =>
    match xs with
    | .nil => ['[', ']']
    | _ => joinSep ['\n'] (dyItems xs indent)
  | .vdict es, indent =>
    match es with
    | .nil => [lbrace, rbrace]
    | _ => joinSep ['\n'] (dyDictLines indent (sortRendered (dyEntries es indent)))
/-- The `f'{indent_str}- {item_yaml}'` lines of the list branch. -/
def dyItems : ValueSeq → Nat → List (List Char)
  | .nil, _ => []
  | .cons v rest, indent =>
    (indentStr indent ++ chars "- " ++ to_deterministic_yaml v (indent + 1))
      :: dyItems rest indent
/-- Recursive rendering of each dict entry (key, container flag, value text
at `indent + 1`), in insertion order, before sorting. -/
def dyEntries : EntrySeq → Nat → List RenderedEntry
  | .nil, _ => []
  | .cons k v rest, indent =>
    RenderedEntry.mk k (isNonemptyContainer v) (to_deterministic_yaml v (indent + 1))
      :: dyEntries rest indent
end

theorem encoder_sample_unquoted_text :
    to_deterministic_yaml (.vstr (chars "hello_world")) 0 = chars "hello_world" := by
  decide

theorem encoder_sample_sorted_mapping :
    to_deterministic_yaml
      (.vdict (.cons (chars "zebra") (.vint 1)
        (.cons (chars "apple") (.vint 2) (.cons (chars "banana") (.vint 3) .nil)))) 0
      = chars "apple: 2" ++ '\n' :: chars "banana: 3" ++ '\n' :: chars "zebra: 1" := by
  decide

/-- The UTF-8 bytes of one Unicode scalar (`str.encode('utf-8')`, per scalar). -/
def utf8Char (c : Char) : List Nat :=
  let n := c.toNat
  if n < 0x80 then [n]
  else if n < 0x800 then [0xC0 + n / 64, 0x80 + n % 64]
  else if n < 0x10000 then [0xE0 + n / 4096, 0x80 + n / 64 % 64, 0x80 + n % 64]
  else [0xF0 + n / 262144, 0x80 + n / 4096 % 64, 0x80 + n / 64 % 64, 0x80 + n % 64]

/-- `text.encode('utf-8')`. -/
def utf8 (s : List Char) : List Nat := (s.map utf8Char).flatten

/-- One shift of the reflected CRC-32 (polynomial `0xEDB88320`), as in zlib. -/
def crcShift (crc : Nat) : Nat :=
  if crc % 2 = 1 then (crc / 2) ^^^ 0xEDB88320 else crc / 2

/-- Eight shifts: one input byte consumed. -/
def crcByte (crc b : Nat) : Nat :=
  crcShift (crcShift (crcShift (crcShift (crcShift (crcShift (crcShift (crcShift (crc ^^^ b))))))))

/-- `zlib.crc32(bytes) & 0xffffffff`. -/
def crc32 (bytes : List Nat) : Nat :=
  (bytes.foldl crcByte 0xFFFFFFFF) ^^^ 0xFFFFFFFF

def B64_ALPHABET : List Char :=
  chars "ABCDEFGHIJKLMNOPQRSTUVWXYZabcdefghijklmnopqrstuvwxyz0123456789+/"

def b64Char (n : Nat) : Char := B64_ALPHABET.getD n 'A'

/-- RFC 4648 base64 with padding, as `base64.b64encode` produces. -/
def b64encode : List Nat → List Char
  | [] => []
  | [b0] => [b64Char (b0 / 4), b64Char (b0 % 4 * 16), '=', '=']
  | [b0, b1] => [b64Char (b0 / 4), b64Char (b0 % 4 * 16 + b1 / 16), b64Char (b1 % 16 * 4), '=']
  | b0 :: b1 :: b2 :: rest =>
    b64Char (b0 / 4) :: b64Char (b0 % 4 * 16 + b1 / 16) :: b64Char (b1 % 16 * 4 + b2 / 64)
      :: b64Char (b2 % 64) :: b64encode rest

/-- Python `s.rstrip('=')`. -/
def rstripEq (s : List Char) : List Char := (s.reverse.dropWhile (fun c => c = '=')).reverse

/-- `crc.to_bytes(4, byteorder='big')` for `crc < 2 ^ 32`. -/
def be4 (n : Nat) : List Nat := [n / 2 ^ 24 % 256, n / 2 ^ 16 % 256, n / 2 ^ 8 % 256, n % 256]

/-- `calculate_crc32(text)`: CRC-32 of the UTF-8 bytes, 4 bytes big-endian,
base64 without the trailing padding. -/
def calculate_crc32 (text : List Char) : List Char :=
  rstripEq (b64encode (be4 (crc32 (utf8 text))))

/-- The character class of `CRC32_PATTERN`, `[A-Za-z0-9+/=]`. -/
def b64ClassChar (c : Char) : Bool := c.isAlphanum || c = '+' || c = '/' || c = '='

/-- `extract_crc32(value)`: split the trailing `[crc32:VALUE]` marker.
`CRC32_PATTERN = re.compile(r'\[crc32:([A-Za-z0-9+/=]+)\]$')` is anchored at
the end and its value class contains no bracket, so it has at most one match
in any string; the backward scan below finds exactly that match. -/
def extract_crc32 (value : List Char) : Option (List Char) × List Char :=
  match value.reverse with
  | ']' :: rest =>
    let dRev := rest.takeWhile b64ClassChar
    let pre := rest.dropWhile b64ClassChar
    if !dRev.isEmpty && List.isPrefixOf (chars "[crc32:").reverse pre then
      (some dRev.reverse, (pre.drop 7).reverse)
    else (none, value)
  | _ => (none, value)

/-- `add_crc32(value)`: strip an existing marker, checksum the content,
append a fresh marker. -/
def add_crc32 (value : List Char) : List Char :=
  let content := (extract_crc32 value).2
  content ++ chars "[crc32:" ++ calculate_crc32 content ++ [']']

/-- The inner `normalize_base64` of `validate_crc32`. -/
def normalize_base64 (s : List Char) : List Char :=
  let missing := s.length % 4
  if missing ≠ 0 then s ++ List.replicate (4 - missing) '=' else s

/-- `validate_crc32(value)`: `(is_valid, error_message)`. -/
def validate_crc32 (value : List Char) : Bool × Option (List Char) :=
  match extract_crc32 value with
  | (none, _) => (true, none)
  | (some got, content) =>
    let expected := calculate_crc32 content
    if normalize_base64 expected = normalize_base64 got then (true, none)
    else
      (false, some (chars "CRC32 mismatch: expected " ++ expected ++ chars ", got " ++ got))

theorem b64Char_mem_or_default (n : Nat) :
    b64Char n ∈ B64_ALPHABET ∨ b64Char n = 'A' := by
  unfold b64Char
  rcases Nat.lt_or_ge n B64_ALPHABET.length with h | h
  · left
    rw [List.getD_eq_getElem _ _ h]
    exact List.getElem_mem h
  · right
    exact List.getD_eq_default _ _ h

theorem b64Char_class (n : Nat) : b64ClassChar (b64Char n) = true := by
  rcases b64Char_mem_or_default n with h | h
  · revert h
    have : ∀ c ∈ B64_ALPHABET, b64ClassChar c = true := by decide
    exact this _
  · rw [h]
    decide

theorem b64Char_ne_pad (n : Nat) : (b64Char n = '=') = False := by
  simp only [eq_iff_iff, iff_false]
  rcases b64Char_mem_or_default n with h | h
  · revert h
    have : ∀ c ∈ B64_ALPHABET, ¬(c = '=') := by decide
    intro h
    exact this _ h
  · rw [h]
    decide

theorem takeWhile_app_all {p : Char → Bool} {l r : List Char}
    (h : ∀ c ∈ l, p c = true) : (l ++ r).takeWhile p = l ++ r.takeWhile p := by
  induction l with
  | nil => rfl
  | cons x xs ih =>
    have hx : p x = true := h x (List.mem_cons_self x xs)
    have hxs : ∀ c ∈ xs, p c = true := fun c hc => h c (List.mem_cons_of_mem x hc)
    rw [List.cons_append, List.takeWhile_cons, hx]
    rw [if_pos rfl]
    rw [ih hxs]
    rfl

theorem dropWhile_app_all {p : Char → Bool} {l r : List Char}
    (h : ∀ c ∈ l, p c = true) : (l ++ r).dropWhile p = r.dropWhile p := by
  induction l with
  | nil => rfl
  | cons x xs ih =>
    have hx : p x = true := h x (List.mem_cons_self x xs)
    have hxs : ∀ c ∈ xs, p c = true := fun c hc => h c (List.mem_cons_of_mem x hc)
    rw [List.cons_append, List.dropWhile_cons, hx]
    rw [if_pos rfl]
    exact ih hxs

/-- The unique-match split: extracting from `content ++ "[crc32:" ++ d ++ "]"`
finds exactly `d` and `content`, for any non-empty all-class `d`. -/
theorem extract_crc32_split (content d : List Char) (hne : d ≠ [])
    (hcl : ∀ c ∈ d, b64ClassChar c = true) :
    extract_crc32 (content ++ chars "[crc32:" ++ d ++ [']']) = (some d, content) := by
  have hrev : (content ++ chars "[crc32:" ++ d ++ [']']).reverse
      = ']' :: (d.reverse ++ ((chars "[crc32:").reverse ++ content.reverse)) := by
    simp [List.reverse_append]
  have hclr : ∀ c ∈ d.reverse, b64ClassChar c = true := by
    intro c hc; exact hcl c (List.mem_reverse.mp hc)
  have hcolon : b64ClassChar ':' = false := by decide
  have hrev7 : (chars "[crc32:").reverse = ':' :: chars "23crc[" := by decide
  have htw : (d.reverse ++ ((chars "[crc32:").reverse ++ content.reverse)).takeWhile b64ClassChar
      = d.reverse := by
    rw [takeWhile_app_all hclr, hrev7]
    simp [List.takeWhile_cons, hcolon]
  have hdw : (d.reverse ++ ((chars "[crc32:").reverse ++ content.reverse)).dropWhile b64ClassChar
      = (chars "[crc32:").reverse ++ content.reverse := by
    rw [dropWhile_app_all hclr, hrev7]
    simp [List.dropWhile_cons, hcolon]
  have hdne : d.reverse.isEmpty = false := by
    cases hd : d.reverse with
    | nil => exact absurd (by simpa using congrArg List.reverse hd) hne
    | cons a t => rfl
  have hpre : List.isPrefixOf (chars "[crc32:").reverse
      ((chars "[crc32:").reverse ++ content.reverse) = true := by
    rw [List.isPrefixOf_iff_prefix]
    exact List.prefix_append _ _
  unfold extract_crc32
  rw [hrev]
  simp only [htw, hdw, hdne, hpre, Bool.not_false, Bool.true_and, if_true]
  have hlen : (chars "[crc32:").reverse.length = 7 := by decide
  rw [← hlen, List.drop_left]
  simp

/-- `calculate_crc32` in explicit form: six non-padding base64 characters. -/
theorem calculate_crc32_explicit (t : List Char) :
    calculate_crc32 t =
      [b64Char (crc32 (utf8 t) / 2 ^ 24 % 256 / 4),
       b64Char (crc32 (utf8 t) / 2 ^ 24 % 256 % 4 * 16 + crc32 (utf8 t) / 2 ^ 16 % 256 / 16),
       b64Char (crc32 (utf8 t) / 2 ^ 16 % 256 % 16 * 4 + crc32 (utf8 t) / 2 ^ 8 % 256 / 64),
       b64Char (crc32 (utf8 t) / 2 ^ 8 % 256 % 64),
       b64Char (crc32 (utf8 t) % 256 / 4),
       b64Char (crc32 (utf8 t) % 256 % 4 * 16)] := by
  have hpad : ∀ n : Nat, decide (b64Char n = '=') = false := by
    intro n
    simp [b64Char_ne_pad n]
  unfold calculate_crc32 be4 b64encode rstripEq
  simp [List.dropWhile, hpad]

theorem calculate_crc32_length (t : List Char) : (calculate_crc32 t).length = 6 := by
  rw [calculate_crc32_explicit]
  rfl

theorem calculate_crc32_class (t : List Char) :
    ∀ c ∈ calculate_crc32 t, b64ClassChar c = true := by
  rw [calculate_crc32_explicit]
  intro c hc
  simp only [List.mem_cons, List.not_mem_nil, or_false] at hc
  rcases hc with h | h | h | h | h | h <;> rw [h] <;> exact b64Char_class _

theorem calculate_crc32_ne_nil (t : List Char) : calculate_crc32 t ≠ [] := by
  intro h
  have := calculate_crc32_length t
  rw [h] at this
  exact absurd this (by decide)

theorem validate_add_crc32 (x : List Char) :
    validate_crc32 (add_crc32 x) = (true, none) := by
  have h := extract_crc32_split (extract_crc32 x).2 (calculate_crc32 (extract_crc32 x).2)
    (calculate_crc32_ne_nil _) (calculate_crc32_class _)
  unfold add_crc32 validate_crc32
  rw [h]
  simp

theorem validate_crc32_wrong (content d2 : List Char) (hlen : d2.length = 6)
    (hcl : ∀ c ∈ d2, b64ClassChar c = true) (hne : d2 ≠ calculate_crc32 content) :
    validate_crc32 (content ++ chars "[crc32:" ++ d2 ++ [']'])
      = (false, some (chars "CRC32 mismatch: expected " ++ calculate_crc32 content
          ++ chars ", got " ++ d2)) := by
  have hd2ne : d2 ≠ [] := by
    intro h
    rw [h] at hlen
    exact absurd hlen (by decide)
  have h := extract_crc32_split content d2 hd2ne hcl
  have hnorm : ¬(normalize_base64 (calculate_crc32 content) = normalize_base64 d2) := by
    unfold normalize_base64
    rw [calculate_crc32_length, hlen]
    intro he
    simp only [show (6 : Nat) % 4 = 2 from rfl, if_pos (by decide : (2 : Nat) ≠ 0)] at he
    exact hne (List.append_cancel_right he).symm
  unfold validate_crc32
  rw [h]
  simp [hnorm]

/-- C7 (amended): for every string `x`, `validate_crc32(add_crc32(x))` is valid
with no error; and replacing the six-character checksum value of a stamped
marker by any different six-character string over the marker alphabet
`[A-Za-z0-9+/=]` — in particular, changing any single character of the
checksum value to a different alphabet character — makes `validate_crc32`
return invalid, with an error message naming both the expected and the
actual checksum value. -/
theorem crc32_stamp_validate_amended :
    (∀ x : List Char, validate_crc32 (add_crc32 x) = (true, none)) ∧
    (∀ content d2 : List Char, d2.length = 6 →
      (∀ c ∈ d2, b64ClassChar c = true) → d2 ≠ calculate_crc32 content →
      validate_crc32 (content ++ chars "[crc32:" ++ d2 ++ [']'])
        = (false, some (chars "CRC32 mismatch: expected " ++ calculate_crc32 content
            ++ chars ", got " ++ d2))) :=
  ⟨validate_add_crc32, validate_crc32_wrong⟩

/-- Witness for C7's amended theorem at `x = "X"` and the wrong checksum
value `"AAAAAA"`. -/
theorem crc32_stamp_validate_amended_witness :
    validate_crc32 (add_crc32 (chars "X")) = (true, none) ∧
    validate_crc32 (chars "X" ++ chars "[crc32:" ++ chars "AAAAAA" ++ [']'])
      = (false, some (chars "CRC32 mismatch: expected " ++ calculate_crc32 (chars "X")
          ++ chars ", got " ++ chars "AAAAAA")) :=
  ⟨crc32_stamp_validate_amended.1 (chars "X"),
   crc32_stamp_validate_amended.2 (chars "X") (chars "AAAAAA")
     (by decide) (by decide) (by decide)⟩

/-- C7 counterexample: the claim says mutating ANY single character of the
appended `[crc32:<value>]` marker makes `validate_crc32` invalid.  Mutating
the marker's colon (index 7 of `add_crc32("X")`, inside the appended marker,
which occupies indices 1 through 14 of the 15-character stamped text) leaves
no recognizable marker, and `validate_crc32` then reports VALID with no
error. -/
theorem crc32_stamp_mutate_colon_counterexample :
    validate_crc32 ((add_crc32 (chars "X")).set 7 '_') = (true, none) ∧
    (add_crc32 (chars "X")).length = 15 ∧ (chars "X").length = 1 := by
  decide

/-- Python substring containment (`needle in hay`). -/
def substrOf (needle : List Char) : List Char → Bool
  | [] => needle.isEmpty
  | a :: t => List.isPrefixOf needle (a :: t) || substrOf needle t

/-- `enumerate(lines, start=n)`. -/
def enumFromN {α : Type} (n : Nat) : List α → List (Nat × α)
  | [] => []
  | a :: t => (n, a) :: enumFromN (n + 1) t

/-- Python `text.find(c)`: index of the first occurrence, scanning from `i`. -/
def findCharAux (c : Char) : List Char → Nat → Option Nat
  | [], _ => none
  | a :: t, i => if a = c then some i else findCharAux c t (i + 1)

/-- Python `text.find(c)` (`none` models the `-1` result). -/
def findChar (c : Char) (s : List Char) : Option Nat := findCharAux c s 0

/-- The quote-tracking scan shared by `validate_string` (and the parser
fallback): the index of the first `#` outside quotes, walking the line with
an in-quotes flag toggled by unescaped quote characters matching the opening
quote character. -/
def findHashAux : List Char → Nat → Option Char → Bool → Option Char → Option Nat
  | [], _, _, _, _ => none
  | c :: rest, j, prev, inQ, qc =>
    if (c = dquote || c = squote) && !(prev = some bslash) then
      if !inQ then findHashAux rest (j + 1) (some c) true (some c)
      else if some c = qc then findHashAux rest (j + 1) (some c) false none
      else findHashAux rest (j + 1) (some c) inQ qc
    else if c = '#' && !inQ then some j
    else findHashAux rest (j + 1) (some c) inQ qc

def findHash (line : List Char) : Option Nat := findHashAux line 0 none false none

/-- A `ValidationError`: line number (0 = document level) and message.
The severity field is constant per list (errors vs warnings) and omitted. -/
structure VError where
  line : Nat
  message : List Char
deriving DecidableEq

/-- A `ValidationResult`. -/
structure VResult where
  valid : Bool
  errors : List VError
  warnings : List VError
deriving DecidableEq

/-- The keys of a mapping, in insertion order (`list(data.keys())`). -/
def entryKeys : EntrySeq → List (List Char)
  | .nil => []
  | .cons k _ rest => k :: entryKeys rest

/-- Stable insertion for `sorted` on a list of strings. -/
def insertStr (s : List Char) : List (List Char) → List (List Char)
  | [] => [s]
  | h :: t => if pyStrLt s h then s :: h :: t else h :: insertStr s t

/-- Python `sorted` on a list of strings (code-point order, stable). -/
def sortStrs : List (List Char) → List (List Char)
  | [] => []
  | h :: t => insertStr h (sortStrs t)

/-- `'.'.join(path)` followed by the source's f-string suffix. -/
def pathDots (path : List (List Char)) : List Char := joinSep ['.'] path

mutual
/-- `_validate_structure(data, yaml_str, path)`: `(errors, warnings)`.
(The `yaml_str` argument of the source is threaded through the recursion but
never read, and is omitted here.) -/
def validate_structure : Value → List (List Char) → List VError × List VError
  | .vdict es, path =>
    let keys := entryKeys es
    let humanCount := keys.count (chars "$human$")
    let e1 : List VError :=
      if humanCount > 1 then
        [⟨0, chars "Multiple $human$ fields in object at path " ++ pathDots path
            ++ chars " (only one allowed)"⟩]
      else []
    let w1 : List VError :=
      if keys.contains (chars "$human$") && keys.indexOf (chars "$human$") ≠ 0 then
        [⟨0, chars "$human$ field should be first in object at path " ++ pathDots path⟩]
      else []
    let sortedKeys := sortStrs (keys.filter (fun k => k ≠ chars "$human$"))
    let expected :=
      (if keys.contains (chars "$human$") then [chars "$human$"] else []) ++ sortedKeys
    let w2 : List VError :=
      if keys ≠ expected then
        [⟨0, chars "Keys not in lexicographic order in object at path " ++ pathDots path⟩]
      else []
    let nested := validate_structureE es path
    (e1 ++ nested.1, w1 ++ w2 ++ nested.2)
  | .vlist xs, path => validate_structureL xs 0 path
  | _, _ => ([], [])
/-- The nested walk over a mapping's entries. -/
def validate_structureE : EntrySeq → List (List Char) → List VError × List VError
  | .nil, _ => ([], [])
  | .cons k v rest, path =>
    let r := validate_structure v (path ++ [k])
    let rr := validate_structureE rest path
    (r.1 ++ rr.1, r.2 ++ rr.2)
/-- The nested walk over a sequence's items (paths use `str(i)`). -/
def validate_structureL : ValueSeq → Nat → List (List Char) → List VError × List VError
  | .nil, _, _ => ([], [])
  | .cons v rest, i, path =>
    let r := validate_structure v (path ++ [natStr i])
    let rr := validate_structureL rest (i + 1) path
    (r.1 ++ rr.1, r.2 ++ rr.2)
end

/-- `_is_inside_quotes(text, pos)`; `pos = none` models the `-1` that
`str.find` returns on a miss, for which Python's `text[:pos]` drops only the
last character. -/
def is_inside_quotes (text : List Char) (pos : Option Nat) : Bool :=
  let before := match pos with
    | some p => text.take p
    | none => text.dropLast
  (before.count dquote + before.count squote) % 2 = 1

/-- The per-line comment violations of `DeterministicYAML.validate`
(lib/deterministic_yaml.py): a simpler quote heuristic than the core
validator (count the quotes before the first `#`). -/
def lib_comment_violations (yaml_str : List Char) : List (List Char) :=
  if yaml_str.contains '#' then
    (enumFromN 1 (splitOnChar '\n' yaml_str)).filterMap (fun p =>
      let stripped := pyStrip p.2
      if List.isPrefixOf (chars "#") stripped then
        some (chars "Line " ++ natStr p.1 ++ chars ": Comments not allowed")
      else if p.2.contains '#' then
        match findChar '#' p.2 with
        | some hp =>
          let beforeHash := p.2.take hp
          let afterHash := p.2.drop (hp + 1)
          if (beforeHash.count dquote + beforeHash.count squote) % 2 = 0 then
            if !(pyStrip afterHash).isEmpty
                && !(List.isPrefixOf [dquote] (pyStrip afterHash)) then
              some (chars "Line " ++ natStr p.1 ++ chars ": Inline comments not allowed")
            else none
          else none
        | none => none
      else none)
  else []

/-- The document-marker violation of `DeterministicYAML.validate`. -/
def lib_doc_violations (yaml_str : List Char) : List (List Char) :=
  if List.isPrefixOf (chars "---") (pyStrip yaml_str)
      || substrOf (chars "...") yaml_str then
    [chars "Document markers (---, ...) not allowed"]
  else []

/-- The anchor/alias violation of `DeterministicYAML.validate`. -/
def lib_anchor_violations (yaml_str : List Char) : List (List Char) :=
  if yaml_str.contains '&' || yaml_str.contains '*' then
    [chars "Anchors (&) and aliases (*) not allowed"]
  else []

/-- The tab violation of `DeterministicYAML.validate`. -/
def lib_tab_violations (yaml_str : List Char) : List (List Char) :=
  if yaml_str.contains '\t' then
    [chars "Tabs not allowed, use 2 spaces for indentation"]
  else []

/-- The trailing-space violations of `DeterministicYAML.validate`. -/
def lib_trailing_violations (yaml_str : List Char) : List (List Char) :=
  (enumFromN 1 (splitOnChar '\n' yaml_str)).filterMap (fun p =>
    if pyRstrip p.2 ≠ p.2 && !(pyStrip p.2).isEmpty then
      some (chars "Line " ++ natStr p.1 ++ chars ": Trailing spaces not allowed")
    else none)

/-- `DeterministicYAML.validate(yaml_str)` from lib/deterministic_yaml.py:
`(is_valid, error_message)`; `parse` is the outcome of its internal
`yaml.safe_load(yaml_str)` call. -/
def dyaml_lib_validate (yaml_str : List Char) (parse : Except (List Char) Value) :
    Bool × Option (List Char) :=
  match parse with
  | .error e => (false, some (chars "Invalid YAML: " ++ e))
  | .ok _ =>
    let violations := lib_comment_violations yaml_str ++ lib_doc_violations yaml_str
      ++ lib_anchor_violations yaml_str ++ lib_tab_violations yaml_str
      ++ lib_trailing_violations yaml_str
    if !violations.isEmpty then (false, some (joinSep (chars "; ") violations))
    else (true, none)

/-- A message mentions `'tab'` after `.lower()` (the guard before the parse
in `validate_string`). -/
def msgMentionsTab (m : List Char) : Bool :=
  substrOf (chars "tab") (m.map Char.toLower)

/-- The tab errors of `validate_string` (core validator). -/
def tab_errors (yaml_str : List Char) : List VError :=
  (enumFromN 1 (splitOnChar '\n' yaml_str)).filterMap (fun p =>
    if p.2.contains '\t' then
      some ⟨p.1, chars "Tabs not allowed, use 2 spaces for indentation"⟩
    else none)

/-- The comment errors of `validate_string`: a whole-line comment, else a
`#` outside quotes (via the quote-tracking scan) with content after it. -/
def comment_errors (yaml_str : List Char) : List VError :=
  (enumFromN 1 (splitOnChar '\n' yaml_str)).filterMap (fun p =>
    let stripped := pyStrip p.2
    if List.isPrefixOf (chars "#") stripped then
      some ⟨p.1, chars "Comments not allowed (use $human$ fields instead)"⟩
    else if p.2.contains '#' then
      match findHash p.2 with
      | some hp =>
        if !(pyStrip (p.2.drop (hp + 1))).isEmpty then
          some ⟨p.1, chars "Inline comments not allowed (use $human$ fields instead)"⟩
        else none
      | none => none
    else none)

/-- The document-marker error of `validate_string`. -/
def doc_marker_errors (yaml_str : List Char) : List VError :=
  if List.isPrefixOf (chars "---") (pyStrip yaml_str)
      || substrOf (chars "...") yaml_str then
    [⟨0, chars "Document markers (---, ...) not allowed"⟩]
  else []

/-- The anchor/alias error of `validate_string`. -/
def anchor_errors (yaml_str : List Char) : List VError :=
  if yaml_str.contains '&' || yaml_str.contains '*' then
    [⟨0, chars "Anchors (&) and aliases (*) not allowed"⟩]
  else []

/-- The trailing-space errors of `validate_string`. -/
def trailing_errors (yaml_str : List Char) : List VError :=
  (enumFromN 1 (splitOnChar '\n' yaml_str)).filterMap (fun p =>
    if pyRstrip p.2 ≠ p.2 && !(pyStrip p.2).isEmpty then
      some ⟨p.1, chars "Trailing spaces not allowed"⟩
    else none)

/-- The flow-style error of `validate_string`: note the probe position is
always `yaml_str.find({)` even when only `[` occurs (then `find` is `-1`
and `_is_inside_quotes` inspects `yaml_str[:-1]`). -/
def flow_errors (yaml_str : List Char) : List VError :=
  if yaml_str.contains lbrace || yaml_str.contains '[' then
    if !is_inside_quotes yaml_str (findChar lbrace yaml_str) then
      [⟨0, chars "Flow style (\x7b\x7d, []) not allowed, use block style"⟩]
    else []
  else []

/-- `validate_string(yaml_str, strict)` from dyaml/core/validator.py.
`parse` is the outcome of `yaml.safe_load(yaml_str)` (the external parser;
the Python value `None` is `Value.vnull`); both safe_load call sites (this
function and the lib validator it delegates to) receive the same text and
hence the same outcome.  The `strict` parameter of the source is never read
inside the function body.  Error lists appear in the source's append
order. -/
def validate_string (yaml_str : List Char) (parse : Except (List Char) Value) : VResult :=
  let errs0 := tab_errors yaml_str ++ comment_errors yaml_str
    ++ doc_marker_errors yaml_str ++ anchor_errors yaml_str
  let parseAttempted := !(errs0.any (fun e => msgMentionsTab e.message))
  let dataOpt : Option Value :=
    if parseAttempted then
      match parse with
      | .ok v => some v
      | .error _ => none
    else none
  let parseErrs : List VError :=
    if parseAttempted then
      match parse with
      | .ok _ => []
      | .error e => [⟨0, chars "Invalid YAML: " ++ e⟩]
    else []
  let structPair : List VError × List VError :=
    match dataOpt with
    | some v => if v ≠ .vnull then validate_structure v [] else ([], [])
    | none => ([], [])
  let libRes := dyaml_lib_validate yaml_str parse
  let libErrs : List VError := if !libRes.1 then [⟨0, libRes.2.getD []⟩] else []
  let errors := errs0 ++ parseErrs ++ trailing_errors yaml_str ++ flow_errors yaml_str
    ++ structPair.1 ++ libErrs
  ⟨errors.isEmpty, errors, structPair.2⟩
mutual
/-- Every mapping of the tree has at most one `$human$` entry (always true
for trees produced by Python's `yaml.safe_load`, whose dicts cannot repeat a
key). -/
def noMultiHuman : Value → Bool
  | .vdict es => ((entryKeys es).count (chars "$human$") ≤ 1 : Bool) && noMultiHumanE es
  | .vlist xs => noMultiHumanL xs
  | _ => true
/-- `noMultiHuman` over a mapping's entries. -/
def noMultiHumanE : EntrySeq → Bool
  | .nil => true
  | .cons _ v rest => noMultiHuman v && noMultiHumanE rest
/-- `noMultiHuman` over a sequence's items. -/
def noMultiHumanL : ValueSeq → Bool
  | .nil => true
  | .cons v rest => noMultiHuman v && noMultiHumanL rest
end

theorem splitOnChar_ne_nil (sep : Char) (t : List Char) : splitOnChar sep t ≠ [] := by
  cases t with
  | nil => simp [splitOnChar]
  | cons a rest =>
    unfold splitOnChar
    by_cases h : a = sep
    · simp [h]
    · simp only [if_neg h]
      cases splitOnChar sep rest <;> simp

theorem mem_of_mem_splitOnChar {sep c : Char} {t l : List Char}
    (hl : l ∈ splitOnChar sep t) (hc : c ∈ l) : c ∈ t := by
  induction t generalizing l with
  | nil =>
    simp [splitOnChar] at hl
    rw [hl] at hc
    exact absurd hc (List.not_mem_nil c)
  | cons a rest ih =>
    unfold splitOnChar at hl
    by_cases h : a = sep
    · simp only [if_pos h] at hl
      rcases List.mem_cons.mp hl with h1 | h1
      · rw [h1] at hc
        exact absurd hc (List.not_mem_nil c)
      · exact List.mem_cons_of_mem a (ih h1 hc)
    · simp only [if_neg h] at hl
      rcases hr : splitOnChar sep rest with _ | ⟨rh, rt⟩
      · exact absurd hr (splitOnChar_ne_nil sep rest)
      · rw [hr] at hl
        rcases List.mem_cons.mp hl with h1 | h1
        · rw [h1] at hc
          rcases List.mem_cons.mp hc with h2 | h2
          · exact h2 ▸ List.mem_cons_self a rest
          · exact List.mem_cons_of_mem a (ih (hr ▸ List.mem_cons_self rh rt) h2)
        · exact List.mem_cons_of_mem a (ih (hr ▸ List.mem_cons_of_mem rh h1) hc)

theorem enumFromN_mem {α : Type} {n : Nat} {l : List α} {p : Nat × α}
    (h : p ∈ enumFromN n l) : p.2 ∈ l := by
  induction l generalizing n with
  | nil => simp [enumFromN] at h
  | cons a t ih =>
    unfold enumFromN at h
    rcases List.mem_cons.mp h with h1 | h1
    · rw [h1]
      exact List.mem_cons_self a t
    · exact List.mem_cons_of_mem a (ih h1)

theorem not_mem_of_contains_false {α : Type} [BEq α] [LawfulBEq α] {s : List α} {c : α}
    (h : s.contains c = false) : ¬c ∈ s := by
  intro hm
  have : s.contains c = true := by
    simp [List.contains, List.elem_eq_mem, hm]
  rw [this] at h
  cases h

theorem contains_false_of_not_mem {α : Type} [BEq α] [LawfulBEq α] {s : List α} {c : α}
    (h : ¬c ∈ s) : s.contains c = false := by
  cases hc : s.contains c with
  | false => rfl
  | true =>
    exfalso
    apply h
    have := hc
    simp [List.contains, List.elem_eq_mem] at this
    exact this

theorem mem_of_mem_pyRstrip {c : Char} {l : List Char} (h : c ∈ pyRstrip l) : c ∈ l := by
  unfold pyRstrip at h
  rw [List.mem_reverse] at h
  exact List.mem_reverse.mp ((List.dropWhile_sublist _).mem h)

theorem mem_of_mem_pyStrip {c : Char} {l : List Char} (h : c ∈ pyStrip l) : c ∈ l := by
  unfold pyStrip at h
  exact (List.dropWhile_sublist _).mem (mem_of_mem_pyRstrip h)

theorem hash_mem_of_leading {s : List Char}
    (h : List.isPrefixOf (chars "#") s = true) : '#' ∈ s := by
  rcases List.isPrefixOf_iff_prefix.mp h with ⟨t, ht⟩
  rw [← ht]
  simp [chars]

mutual
/-- `_validate_structure` never records an error on a tree whose mappings
each hold at most one `$human$` entry (its only error is the
multiple-`$human$` diagnostic). -/
theorem validate_structure_no_errors :
    ∀ (v : Value) (path : List (List Char)), noMultiHuman v = true →
      (validate_structure v path).1 = []
  | .vnull, _, _ => rfl
  | .vbool _, _, _ => rfl
  | .vint _, _, _ => rfl
  | .vfloat _, _, _ => rfl
  | .vstr _, _, _ => rfl
  | .vlist xs, path, h => validate_structureL_no_errors xs 0 path h
  | .vdict es, path, h => by
    unfold noMultiHuman at h
    rw [Bool.and_eq_true] at h
    unfold validate_structure
    have h1 : ¬((entryKeys es).count (chars "$human$") > 1) := by
      have := h.1
      rw [decide_eq_true_iff] at this
      omega
    simp only [if_neg h1, List.nil_append]
    exact validate_structureE_no_errors es path h.2
/-- `validate_structure_no_errors` over a mapping's entries. -/
theorem validate_structureE_no_errors :
    ∀ (es : EntrySeq) (path : List (List Char)), noMultiHumanE es = true →
      (validate_structureE es path).1 = []
  | .nil, _, _ => rfl
  | .cons k v rest, path, h => by
    unfold noMultiHumanE at h
    rw [Bool.and_eq_true] at h
    simp only [validate_structureE]
    rw [validate_structure_no_errors v (path ++ [k]) h.1,
      validate_structureE_no_errors rest path h.2]
    rfl
/-- `validate_structure_no_errors` over a sequence's items. -/
theorem validate_structureL_no_errors :
    ∀ (xs : ValueSeq) (i : Nat) (path : List (List Char)), noMultiHumanL xs = true →
      (validate_structureL xs i path).1 = []
  | .nil, _, _, _ => rfl
  | .cons v rest, i, path, h => by
    unfold noMultiHumanL at h
    rw [Bool.and_eq_true] at h
    simp only [validate_structureL]
    rw [validate_structure_no_errors v (path ++ [natStr i]) h.1,
      validate_structureL_no_errors rest (i + 1) path h.2]
    rfl
end

theorem tab_errors_nil {t : List Char} (h : t.contains '\t' = false) :
    tab_errors t = [] := by
  apply List.filterMap_eq_nil_iff.mpr
  intro p hp
  have hnm : '\t' ∉ p.2 := fun hm =>
    not_mem_of_contains_false h (mem_of_mem_splitOnChar (enumFromN_mem hp) hm)
  simp [tab_errors, hnm]

theorem comment_errors_nil {t : List Char} (h : t.contains '#' = false) :
    comment_errors t = [] := by
  apply List.filterMap_eq_nil_iff.mpr
  intro p hp
  have hline : '#' ∉ p.2 := by
    intro hm
    exact not_mem_of_contains_false h
      (mem_of_mem_splitOnChar (enumFromN_mem hp) hm)
  have hpre : List.isPrefixOf (chars "#") (pyStrip p.2) = false := by
    cases hb : List.isPrefixOf (chars "#") (pyStrip p.2) with
    | false => rfl
    | true => exact absurd (mem_of_mem_pyStrip (hash_mem_of_leading hb)) hline
  simp [hpre, hline]

theorem doc_marker_errors_nil {t : List Char}
    (h1 : List.isPrefixOf (chars "---") (pyStrip t) = false)
    (h2 : substrOf (chars "...") t = false) :
    doc_marker_errors t = [] := by
  simp [doc_marker_errors, h1, h2]

theorem anchor_errors_nil {t : List Char}
    (h1 : t.contains '&' = false) (h2 : t.contains '*' = false) :
    anchor_errors t = [] := by
  simp [anchor_errors, not_mem_of_contains_false h1, not_mem_of_contains_false h2]

theorem trailing_errors_nil {t : List Char}
    (h : ∀ l ∈ splitOnChar '\n' t, pyRstrip l = l ∨ pyStrip l = []) :
    trailing_errors t = [] := by
  apply List.filterMap_eq_nil_iff.mpr
  intro p hp
  rcases h p.2 (enumFromN_mem hp) with h1 | h1 <;> simp [h1]

theorem flow_errors_nil {t : List Char}
    (h1 : t.contains lbrace = false) (h2 : t.contains '[' = false) :
    flow_errors t = [] := by
  simp [flow_errors, not_mem_of_contains_false h1, not_mem_of_contains_false h2]

theorem lib_trailing_violations_nil {t : List Char}
    (h : ∀ l ∈ splitOnChar '\n' t, pyRstrip l = l ∨ pyStrip l = []) :
    lib_trailing_violations t = [] := by
  apply List.filterMap_eq_nil_iff.mpr
  intro p hp
  rcases h p.2 (enumFromN_mem hp) with h1 | h1 <;> simp [h1]

theorem dyaml_lib_validate_ok {t : List Char} {v : Value}
    (h2 : t.contains '#' = false)
    (h3 : t.contains '&' = false)
    (h4 : t.contains '*' = false)
    (h7 : substrOf (chars "...") t = false)
    (h8 : List.isPrefixOf (chars "---") (pyStrip t) = false)
    (h1 : t.contains '\t' = false)
    (h9 : ∀ l ∈ splitOnChar '\n' t, pyRstrip l = l ∨ pyStrip l = []) :
    dyaml_lib_validate t (.ok v) = (true, none) := by
  unfold dyaml_lib_validate
  have hc : lib_comment_violations t = [] := by
    simp [lib_comment_violations, not_mem_of_contains_false h2]
  have hd : lib_doc_violations t = [] := by
    simp [lib_doc_violations, h7, h8]
  have ha : lib_anchor_violations t = [] := by
    simp [lib_anchor_violations, not_mem_of_contains_false h3, not_mem_of_contains_false h4]
  have htb : lib_tab_violations t = [] := by
    simp [lib_tab_violations, not_mem_of_contains_false h1]
  have htr := lib_trailing_violations_nil h9
  rw [hc, hd, ha, htb, htr]
  rfl

/-- C2 (amended): the validator performs NO re-encoding comparison.  Any text
that passes the line-level lexical checks (no tabs, `#`, `&`, `*`, braces,
brackets, `...`, no leading `---`, no trailing whitespace) and parses to a
tree whose mappings each hold at most one `$human$` entry validates with
`valid = true`, even when the canonical encoding of the parsed tree differs
from the trimmed text; non-canonical key order surfaces only as a warning. -/
theorem validate_string_lexical_only (t : List Char) (v : Value)
    (h1 : t.contains '\t' = false)
    (h2 : t.contains '#' = false)
    (h3 : t.contains '&' = false)
    (h4 : t.contains '*' = false)
    (h5 : t.contains lbrace = false)
    (h6 : t.contains '[' = false)
    (h7 : substrOf (chars "...") t = false)
    (h8 : List.isPrefixOf (chars "---") (pyStrip t) = false)
    (h9 : ∀ l ∈ splitOnChar '\n' t, pyRstrip l = l ∨ pyStrip l = [])
    (h10 : noMultiHuman v = true)
    (_h11 : to_deterministic_yaml v 0 ≠ pyStrip t) :
    (validate_string t (.ok v)).valid = true := by
  unfold validate_string
  rw [tab_errors_nil h1, comment_errors_nil h2, doc_marker_errors_nil h8 h7,
    anchor_errors_nil h3 h4, trailing_errors_nil h9, flow_errors_nil h5 h6,
    dyaml_lib_validate_ok h2 h3 h4 h7 h8 h1 h9]
  simp only [List.nil_append, List.append_nil, List.any_nil, Bool.not_false, if_true]
  have hs : (match (if (true : Bool) then match (Except.ok v : Except (List Char) Value) with
      | .ok w => some w
      | .error _ => none else none) with
    | some w => if w ≠ Value.vnull then validate_structure w [] else ([], [])
    | none => (([] : List VError), ([] : List VError))).1 = [] := by
    simp only [if_true]
    by_cases hn : v = Value.vnull
    · simp [hn]
    · simp only [hn, ne_eq, not_false_eq_true, if_true]
      exact validate_structure_no_errors v [] h10
  simp only [if_true] at hs ⊢
  by_cases hn : v = Value.vnull
  · simp [hn]
  · simp [hn, validate_structure_no_errors v [] h10]

/-- C1: the canonicality self-check fails on the code.  The canonical
encoder renders the empty sequence as its documented canonical token `[]`,
yet `validate_string` rejects exactly that text: the flow-style check fires
on the `[` (its quote probe scans `yaml_str[:-1]` because `find(` followed
by the opening brace `)` is `-1`), so the result is `valid = false` with a
flow-style error.  (`yaml.safe_load("[]")` returns the empty list, the
supplied parse outcome.) -/
theorem encoder_output_rejected_empty_list_bug :
    to_deterministic_yaml (.vlist .nil) 0 = chars "[]" ∧
    (validate_string (chars "[]") (.ok (.vlist .nil))).valid = false ∧
    (validate_string (chars "[]") (.ok (.vlist .nil))).errors.map VError.message
      = [chars "Flow style (\x7b\x7d, []) not allowed, use block style"] := by
  decide

set_option maxRecDepth 4000 in
/-- C3: the structural validator never consults the checksum utility.  On
the document of the repo's own test `test_validate_with_crc32_invalid`
(`$human$` carrying the invalid marker `[crc32:INVALID]`), `validate_crc32`
itself reports the marker invalid, but `validate_string`'s entire error list
is one unrelated flow-style diagnostic (triggered by the `[` inside the
quoted scalar): no recorded error mentions crc32 or a mismatch at all. -/
theorem validator_never_checks_crc32_bug :
    (validate_crc32 (chars "Test comment[crc32:INVALID]")).1 = false ∧
    (validate_string
      (chars "$human$: " ++ [dquote] ++ chars "Test comment[crc32:INVALID]" ++ [dquote]
        ++ '\n' :: chars "name: John" ++ ['\n'])
      (.ok (.vdict (.cons (chars "$human$") (.vstr (chars "Test comment[crc32:INVALID]"))
        (.cons (chars "name") (.vstr (chars "John")) .nil))))).errors.map VError.message
      = [chars "Flow style (\x7b\x7d, []) not allowed, use block style"] ∧
    ((validate_string
      (chars "$human$: " ++ [dquote] ++ chars "Test comment[crc32:INVALID]" ++ [dquote]
        ++ '\n' :: chars "name: John" ++ ['\n'])
      (.ok (.vdict (.cons (chars "$human$") (.vstr (chars "Test comment[crc32:INVALID]"))
        (.cons (chars "name") (.vstr (chars "John")) .nil))))).errors.all
      (fun e => !(substrOf (chars "crc32") (e.message.map Char.toLower))
        && !(substrOf (chars "mismatch") (e.message.map Char.toLower)))) = true := by
  decide

/-- C2 counterexample: the claim says the validator re-encodes the parsed
tree and fails any text whose canonical encoding differs from the trimmed
text.  `"b: 1\na: 2"` parses to a tree that canonically encodes as
`"a: 2\nb: 1"` (different text), yet `validate_string` answers
`valid = true`. -/
theorem validate_string_no_reencode_counterexample :
    (validate_string (chars "b: 1" ++ '\n' :: chars "a: 2")
      (.ok (.vdict (.cons (chars "b") (.vint 1)
        (.cons (chars "a") (.vint 2) .nil))))).valid = true ∧
    to_deterministic_yaml
      (.vdict (.cons (chars "b") (.vint 1) (.cons (chars "a") (.vint 2) .nil))) 0
      ≠ pyStrip (chars "b: 1" ++ '\n' :: chars "a: 2") := by
  decide

/-- Witness for C2's amended theorem at the same out-of-order two-key
document. -/
theorem validate_string_lexical_only_witness :
    (validate_string (chars "b: 1" ++ '\n' :: chars "a: 2")
      (.ok (.vdict (.cons (chars "b") (.vint 1)
        (.cons (chars "a") (.vint 2) .nil))))).valid = true :=
  validate_string_lexical_only (chars "b: 1" ++ '\n' :: chars "a: 2")
    (.vdict (.cons (chars "b") (.vint 1) (.cons (chars "a") (.vint 2) .nil)))
    (by decide) (by decide) (by decide) (by decide) (by decide) (by decide)
    (by decide) (by decide) (by decide) (by decide) (by decide)

theorem u32_toNat_le {a b : UInt32} (h : a ≤ b) : a.toNat ≤ b.toNat := by
  rw [UInt32.le_def, BitVec.le_def] at h
  exact h

theorem identChar_gt36 {c : Char} (h : (c.isAlphanum || c = '_') = true) :
    36 < c.toNat := by
  rw [Bool.or_eq_true] at h
  rcases h with h | h
  · simp [Char.isAlphanum, Char.isAlpha, Char.isDigit, Char.isUpper, Char.isLower] at h
    unfold Char.toNat
    rcases h with (⟨h1, _⟩ | ⟨h1, _⟩) | ⟨h1, _⟩ <;> have := u32_toNat_le h1 <;>
      simp only [show (65 : UInt32).toNat = 65 from rfl, show (97 : UInt32).toNat = 97 from rfl,
        show (48 : UInt32).toNat = 48 from rfl] at this <;> omega
  · rw [decide_eq_true_iff] at h
    subst h
    decide

/-- `"$human$"` sorts strictly before every restricted-identifier key, since
`$` (code point 36) precedes every character of `[A-Za-z0-9_]`. -/
theorem human_lt_ident {k : List Char} (h : identKey k = true) :
    pyStrLt (chars "$human$") k = true := by
  cases k with
  | nil => simp [identKey] at h
  | cons c rest =>
    unfold identKey at h
    rw [Bool.and_eq_true, List.all_eq_true] at h
    have hc := identChar_gt36 (h.2 c (List.mem_cons_self c rest))
    have hlt : '$'.toNat < c.toNat := by
      have h36 : '$'.toNat = 36 := by decide
      omega
    show (if '$'.toNat < c.toNat then true
      else if c.toNat < '$'.toNat then false
      else pyStrLt (chars "human$") rest) = true
    rw [if_pos hlt]

theorem pyStrLt_asymm : ∀ {a b : List Char}, pyStrLt a b = true → pyStrLt b a = false
  | [], [], h => by simp [pyStrLt] at h
  | [], _ :: _, _ => by simp [pyStrLt]
  | _ :: _, [], h => by simp [pyStrLt] at h
  | a :: as, b :: bs, h => by
    unfold pyStrLt at h ⊢
    by_cases h1 : a.toNat < b.toNat
    · have h2 : ¬b.toNat < a.toNat := by omega
      simp [h1, h2]
    · by_cases h2 : b.toNat < a.toNat
      · simp [h1, h2] at h
      · simp only [if_neg h1, if_neg h2] at h ⊢
        exact pyStrLt_asymm h

theorem mem_insertStr {y x : List Char} : ∀ {l : List (List Char)},
    y ∈ insertStr x l → y = x ∨ y ∈ l
  | [], h => by
    simp [insertStr] at h
    exact Or.inl h
  | a :: t, h => by
    unfold insertStr at h
    by_cases hc : pyStrLt x a = true
    · simp only [if_pos hc] at h
      rcases List.mem_cons.mp h with h1 | h1
      · exact Or.inl h1
      · exact Or.inr h1
    · simp only [if_neg hc] at h
      rcases List.mem_cons.mp h with h1 | h1
      · exact Or.inr (h1 ▸ List.mem_cons_self a t)
      · rcases mem_insertStr h1 with h2 | h2
        · exact Or.inl h2
        · exact Or.inr (List.mem_cons_of_mem a h2)

theorem mem_sortStrs {y : List Char} : ∀ {l : List (List Char)},
    y ∈ sortStrs l → y ∈ l
  | [], h => by simp [sortStrs] at h
  | a :: t, h => by
    unfold sortStrs at h
    rcases mem_insertStr h with h1 | h1
    · exact h1 ▸ List.mem_cons_self a t
    · exact List.mem_cons_of_mem a (mem_sortStrs h1)

theorem insertStr_min {x : List Char} {l : List (List Char)}
    (h : ∀ y ∈ l, pyStrLt x y = true) : insertStr x l = x :: l := by
  cases l with
  | nil => rfl
  | cons a t =>
    unfold insertStr
    rw [if_pos (h a (List.mem_cons_self a t))]

/-- Extracting the unique strict minimum from an insertion sort. -/
theorem sortStrs_extract_min : ∀ (l : List (List Char)) (x : List Char),
    l.count x = 1 → (∀ y ∈ l, y ≠ x → pyStrLt x y = true) →
    sortStrs l = x :: sortStrs (l.filter (fun y => y ≠ x))
  | [], x, h1, _ => by simp at h1
  | a :: t, x, h1, h2 => by
    by_cases hax : a = x
    · subst hax
      rw [List.count_cons_self] at h1
      have hxt : a ∉ t := List.count_eq_zero.mp (by omega)
      have hftr : t.filter (fun y => y ≠ a) = t := by
        apply List.filter_eq_self.mpr
        intro y hy
        simp only [ne_eq, decide_eq_true_iff]
        exact fun he => hxt (he ▸ hy)
      have hmin : ∀ y ∈ sortStrs t, pyStrLt a y = true := by
        intro y hy
        have hyt := mem_sortStrs hy
        apply h2 y (List.mem_cons_of_mem a hyt)
        exact fun he => hxt (he ▸ hyt)
      have hfx : (a :: t).filter (fun y => y ≠ a) = t := by
        rw [List.filter_cons_of_neg (by simp)]
        exact hftr
      show insertStr a (sortStrs t) = a :: sortStrs ((a :: t).filter (fun y => y ≠ a))
      rw [hfx, insertStr_min hmin]
    · have hne : (a == x) = false := by
        simp only [beq_eq_false_iff_ne, ne_eq]
        exact hax
      have h1t : t.count x = 1 := by
        rw [List.count_cons, hne] at h1
        simpa using h1
      have h2t : ∀ y ∈ t, y ≠ x → pyStrLt x y = true := fun y hy =>
        h2 y (List.mem_cons_of_mem a hy)
      have ih := sortStrs_extract_min t x h1t h2t
      have hxa : pyStrLt x a = true := h2 a (List.mem_cons_self a t) hax
      show insertStr a (sortStrs t) = x :: sortStrs ((a :: t).filter (fun y => y ≠ x))
      rw [ih]
      have hstep : insertStr a (x :: sortStrs (t.filter (fun y => y ≠ x)))
          = x :: insertStr a (sortStrs (t.filter (fun y => y ≠ x))) := by
        show (if pyStrLt a x = true then a :: x :: sortStrs (t.filter (fun y => y ≠ x))
          else x :: insertStr a (sortStrs (t.filter (fun y => y ≠ x)))) = _
        rw [if_neg (by simp [pyStrLt_asymm hxa])]
      have hfa : (a :: t).filter (fun y => y ≠ x) = a :: t.filter (fun y => y ≠ x) := by
        rw [List.filter_cons_of_pos (by simp [hax])]
      rw [hstep, hfa]
      rfl

theorem insertByKey_key_map (e : RenderedEntry) : ∀ (l : List RenderedEntry),
    (insertByKey e l).map RenderedEntry.key = insertStr e.key (l.map RenderedEntry.key)
  | [] => rfl
  | a :: t => by
    unfold insertByKey insertStr
    by_cases hc : pyStrLt e.key a.key = true
    · simp [hc]
    · simp only [if_neg hc, List.map_cons]
      rw [insertByKey_key_map e t]

theorem sortRendered_key_map : ∀ (l : List RenderedEntry),
    (sortRendered l).map RenderedEntry.key = sortStrs (l.map RenderedEntry.key)
  | [] => rfl
  | a :: t => by
    unfold sortRendered sortStrs
    rw [insertByKey_key_map, sortRendered_key_map t]
    rfl

theorem dyEntries_keys : ∀ (es : EntrySeq) (i : Nat),
    (dyEntries es i).map RenderedEntry.key = entryKeys es
  | .nil, _ => rfl
  | .cons k v rest, i => by
    unfold dyEntries entryKeys
    rw [List.map_cons, dyEntries_keys rest i]

theorem joinSep_head_first (sep l : List Char) (ls : List (List Char)) :
    l <+: joinSep sep (l :: ls) := by
  cases ls with
  | nil => exact List.prefix_refl l
  | cons a t =>
    show l <+: l ++ sep ++ joinSep sep (a :: t)
    rw [List.append_assoc]
    exact List.prefix_append l _

/-- C4 (amended): the encoder sorts ALL keys plainly (it never forces
`$human$` first); but `$` precedes every character of the restricted
identifier alphabet, so whenever every other key matches `[A-Za-z0-9_]+`
the `$human$` entry still comes first: the emitted key order is exactly
`$human$` followed by the remaining keys in strict lexicographic order, and
the output text starts with the (quoted) `$human$` entry. -/
theorem encoder_human_first_amended (es : EntrySeq) (ind : Nat)
    (h1 : (entryKeys es).count (chars "$human$") = 1)
    (h2 : ∀ k ∈ entryKeys es, k ≠ chars "$human$" → identKey k = true) :
    (sortRendered (dyEntries es ind)).map RenderedEntry.key
      = chars "$human$" :: sortStrs ((entryKeys es).filter (fun k => k ≠ chars "$human$"))
    ∧ (indentStr ind ++ chars "\"$human$\":") <+: to_deterministic_yaml (.vdict es) ind := by
  have hkeys : (sortRendered (dyEntries es ind)).map RenderedEntry.key
      = chars "$human$" :: sortStrs ((entryKeys es).filter (fun k => k ≠ chars "$human$")) := by
    rw [sortRendered_key_map, dyEntries_keys]
    exact sortStrs_extract_min (entryKeys es) (chars "$human$") h1
      (fun y hy hne => human_lt_ident (h2 y hy hne))
  refine ⟨hkeys, ?_⟩
  cases hes : es with
  | nil =>
    rw [hes] at h1
    simp [entryKeys] at h1
  | cons k0 v0 rest0 =>
    rw [← hes]
    cases hs : sortRendered (dyEntries es ind) with
    | nil =>
      rw [hs] at hkeys
      simp at hkeys
    | cons e erest =>
      rw [hs] at hkeys
      simp only [List.map_cons, List.cons.injEq] at hkeys
      have hek : e.key = chars "$human$" := hkeys.1
      have htext : to_deterministic_yaml (.vdict es) ind
          = joinSep ['\n'] (dyDictLines ind (sortRendered (dyEntries es ind))) := by
        rw [hes]
        rfl
      rw [htext, hs]
      have hkq : identKey e.key = false := by
        rw [hek]
        decide
      have hesc : dquote :: escape_string e.key ++ [dquote] = chars "\"$human$\"" := by
        rw [hek]
        decide
      unfold dyDictLines
      rw [hkq]
      simp only [Bool.false_eq_true, if_false, hesc]
      cases hcont : e.isContainer with
      | true =>
        simp only [if_true]
        have := joinSep_head_first ['\n']
          (indentStr ind ++ chars "\"$human$\"" ++ [':'])
          (splitOnChar '\n' e.rendered ++ dyDictLines ind erest)
        rw [List.cons_append]
        apply List.IsPrefix.trans ?_ this
        rw [List.append_assoc, show chars "\"$human$\":" = chars "\"$human$\"" ++ [':'] by decide]
      | false =>
        simp only [Bool.false_eq_true, if_false]
        apply List.IsPrefix.trans ?_ (joinSep_head_first ['\n'] _ (dyDictLines ind erest))
        have hsp : chars ": " = ':' :: [' '] := by decide
        have : indentStr ind ++ chars "\"$human$\"" ++ chars ": " ++ e.rendered
            = (indentStr ind ++ chars "\"$human$\":") ++ (' ' :: e.rendered) := by
          rw [hsp]
          have : chars "\"$human$\":" = chars "\"$human$\"" ++ [':'] := by decide
          rw [this]
          simp [List.append_assoc]
        rw [this]
        exact List.prefix_append _ _

/-- C4 counterexample: the claim says `$human$` is emitted first regardless
of its lexicographic position.  In `{"$human$": "x", "$a": null}` the key
`"$a"` sorts before `"$human$"`, and the encoder emits it first: the output
is `"$a": null` then `"$human$": x`, and the text does not start with the
`$human$` entry. -/
theorem encoder_human_first_counterexample :
    to_deterministic_yaml
      (.vdict (.cons (chars "$human$") (.vstr (chars "x"))
        (.cons (chars "$a") .vnull .nil))) 0
      = chars "\"$a\": null" ++ '\n' :: chars "\"$human$\": x" ∧
    List.isPrefixOf (chars "\"$human$\"")
      (to_deterministic_yaml
        (.vdict (.cons (chars "$human$") (.vstr (chars "x"))
          (.cons (chars "$a") .vnull .nil))) 0) = false := by
  decide

/-- Witness for C4's amended theorem on
`{"$human$": "note", "zebra": 1, "apple": 2}`. -/
theorem encoder_human_first_amended_witness :
    (sortRendered (dyEntries (.cons (chars "$human$") (.vstr (chars "note"))
        (.cons (chars "zebra") (.vint 1) (.cons (chars "apple") (.vint 2) .nil))) 0)).map
        RenderedEntry.key
      = chars "$human$" :: sortStrs ((entryKeys (.cons (chars "$human$") (.vstr (chars "note"))
        (.cons (chars "zebra") (.vint 1) (.cons (chars "apple") (.vint 2) .nil)))).filter
          (fun k => k ≠ chars "$human$"))
    ∧ (indentStr 0 ++ chars "\"$human$\":") <+: to_deterministic_yaml
        (.vdict (.cons (chars "$human$") (.vstr (chars "note"))
          (.cons (chars "zebra") (.vint 1) (.cons (chars "apple") (.vint 2) .nil)))) 0 :=
  encoder_human_first_amended
    (.cons (chars "$human$") (.vstr (chars "note"))
      (.cons (chars "zebra") (.vint 1) (.cons (chars "apple") (.vint 2) .nil))) 0
    (by decide) (by decide)

theorem bool_eq_false {b : Bool} (h : ¬b = true) : b = false := by
  cases b with
  | false => rfl
  | true => exact absurd rfl h

/-- The conditions that hold of every string the encoder emits unquoted:
non-empty, no indicator character anywhere (the source's indicator set,
which does NOT include the quote characters), no start indicator (that set
DOES include both quotes), no leading/trailing whitespace or `+`, no newline
or carriage return, and none of the numeric / timestamp / special-keyword
patterns. -/
theorem needs_quotes_unquoted_conditions (v : List Char) (h : needs_quotes v = false) :
    v ≠ [] ∧ (∀ c ∈ v, YAML_INDICATORS.contains c = false) ∧
    (∀ c, v.head? = some c →
      YAML_START_INDICATORS.contains c = false ∧ pyIsSpace c = false ∧ c ≠ '+') ∧
    (∀ c, v.getLast? = some c → pyIsSpace c = false) ∧
    v.contains '\n' = false ∧ v.contains '\r' = false ∧
    INTEGER_PATTERN v = false ∧ FLOAT_PATTERN v = false ∧
    LEADING_ZERO_PATTERN v = false ∧ OCTHEX_PATTERN v = false ∧
    TIMESTAMP_PATTERN v = false ∧ DOTDIGIT_PATTERN v = false ∧
    SPECIAL_VALUES.contains v = false ∧
    ((v.map Char.toLower).contains 'e' && EXP_PATTERN v) = false := by
  unfold needs_quotes at h
  by_cases h0 : v.isEmpty = true
  · rw [if_pos h0] at h
    exact Bool.noConfusion h
  rw [if_neg h0] at h
  by_cases h1 : (v.any fun c => YAML_INDICATORS.contains c) = true
  · rw [if_pos h1] at h
    exact Bool.noConfusion h
  rw [if_neg h1] at h
  by_cases h2 : YAML_START_INDICATORS.contains (v.headD ' ') = true
  · rw [if_pos h2] at h
    exact Bool.noConfusion h
  rw [if_neg h2] at h
  by_cases h3 : (pyIsSpace (v.headD ' ') || pyIsSpace (v.getLastD (v.headD ' '))) = true
  · rw [if_pos h3] at h
    exact Bool.noConfusion h
  rw [if_neg h3] at h
  by_cases h4 : (v.contains '\n' || v.contains '\r') = true
  · rw [if_pos h4] at h
    exact Bool.noConfusion h
  rw [if_neg h4] at h
  by_cases h5 : INTEGER_PATTERN v = true
  · rw [if_pos h5] at h
    exact Bool.noConfusion h
  rw [if_neg h5] at h
  by_cases h6 : FLOAT_PATTERN v = true
  · rw [if_pos h6] at h
    exact Bool.noConfusion h
  rw [if_neg h6] at h
  by_cases h7 : LEADING_ZERO_PATTERN v = true
  · rw [if_pos h7] at h
    exact Bool.noConfusion h
  rw [if_neg h7] at h
  by_cases h8 : (v.contains '_' && INTEGER_PATTERN (v.filter fun c => c ≠ '_')) = true
  · rw [if_pos h8] at h
    exact Bool.noConfusion h
  rw [if_neg h8] at h
  by_cases h9 : v.headD ' ' = '+'
  · rw [if_pos h9] at h
    exact Bool.noConfusion h
  rw [if_neg h9] at h
  by_cases h10 : OCTHEX_PATTERN v = true
  · rw [if_pos h10] at h
    exact Bool.noConfusion h
  rw [if_neg h10] at h
  by_cases h11 : TIMESTAMP_PATTERN v = true
  · rw [if_pos h11] at h
    exact Bool.noConfusion h
  rw [if_neg h11] at h
  by_cases h12 : DOTDIGIT_PATTERN v = true
  · rw [if_pos h12] at h
    exact Bool.noConfusion h
  rw [if_neg h12] at h
  by_cases h13 : SPECIAL_VALUES.contains v = true
  · rw [if_pos h13] at h
    exact Bool.noConfusion h
  rw [if_neg h13] at h
  by_cases h14 : ((v.map Char.toLower).contains 'e' && EXP_PATTERN v) = true
  · rw [if_pos h14] at h
    exact Bool.noConfusion h
  rw [if_neg h14] at h
  clear h
  have hne : v ≠ [] := by
    intro he
    rw [he] at h0
    exact h0 rfl
  have hsp : pyIsSpace (v.headD ' ') = false
      ∧ pyIsSpace (v.getLastD (v.headD ' ')) = false := by
    have := bool_eq_false h3
    rw [Bool.or_eq_false_iff] at this
    exact this
  have hnl : v.contains '\n' = false ∧ v.contains '\r' = false := by
    have := bool_eq_false h4
    rw [Bool.or_eq_false_iff] at this
    exact this
  refine ⟨hne, ?_, ?_, ?_, hnl.1, hnl.2, bool_eq_false h5, bool_eq_false h6,
    bool_eq_false h7, bool_eq_false h10, bool_eq_false h11, bool_eq_false h12,
    bool_eq_false h13, bool_eq_false h14⟩
  · intro c hc
    apply bool_eq_false
    intro hcc
    exact h1 (List.any_eq_true.mpr ⟨c, hc, hcc⟩)
  · intro c hc
    have hcd : v.headD ' ' = c := by
      rw [List.headD_eq_head?, hc]
      rfl
    rw [← hcd]
    exact ⟨bool_eq_false h2, hsp.1, h9⟩
  · intro c hc
    have hgl : v.getLastD (v.headD ' ') = c := by
      rw [List.getLastD_eq_getLast?, hc]
      rfl
    rw [← hgl]
    exact hsp.2

/-- C5 (amended): a text scalar is emitted unquoted only if it is non-empty,
contains no structural indicator character (the source's indicator set —
colon, space, hash, pipe, greater-than, hyphen, braces, brackets, ampersand,
asterisk, bang, percent, at-sign, backtick — which does NOT contain either
quote character), does not start with an indicator or quote character, has
no leading/trailing whitespace, no newline or carriage return, and matches
no numeric/boolean/null/special pattern; `""`, `"42"`, `"true"`,
`"hello-world"` and `"hello:world"` are emitted quoted, and `"hello_world"`
is emitted unquoted.  (Strings containing a quote character only elsewhere
than the first position stay unquoted.) -/
theorem needs_quotes_amended :
    (∀ v : List Char, needs_quotes v = false →
      v ≠ [] ∧ (∀ c ∈ v, YAML_INDICATORS.contains c = false) ∧
      (∀ c, v.head? = some c →
        YAML_START_INDICATORS.contains c = false ∧ pyIsSpace c = false ∧ c ≠ '+') ∧
      (∀ c, v.getLast? = some c → pyIsSpace c = false) ∧
      v.contains '\n' = false ∧ v.contains '\r' = false ∧
      INTEGER_PATTERN v = false ∧ FLOAT_PATTERN v = false ∧
      LEADING_ZERO_PATTERN v = false ∧ OCTHEX_PATTERN v = false ∧
      TIMESTAMP_PATTERN v = false ∧ DOTDIGIT_PATTERN v = false ∧
      SPECIAL_VALUES.contains v = false ∧
      ((v.map Char.toLower).contains 'e' && EXP_PATTERN v) = false) ∧
    needs_quotes (chars "") = true ∧
    needs_quotes (chars "42") = true ∧
    needs_quotes (chars "true") = true ∧
    needs_quotes (chars "hello-world") = true ∧
    needs_quotes (chars "hello:world") = true ∧
    needs_quotes (chars "hello_world") = false ∧
    to_deterministic_yaml (.vstr (chars "")) 0 = chars "\"\"" ∧
    to_deterministic_yaml (.vstr (chars "42")) 0 = chars "\"42\"" ∧
    to_deterministic_yaml (.vstr (chars "true")) 0 = chars "\"true\"" ∧
    to_deterministic_yaml (.vstr (chars "hello-world")) 0 = chars "\"hello-world\"" ∧
    to_deterministic_yaml (.vstr (chars "hello:world")) 0 = chars "\"hello:world\"" ∧
    to_deterministic_yaml (.vstr (chars "hello_world")) 0 = chars "hello_world" :=
  ⟨needs_quotes_unquoted_conditions, by decide, by decide, by decide, by decide,
   by decide, by decide, by decide, by decide, by decide, by decide, by decide, by decide⟩

/-- Witness for C5's amended theorem at `"hello_world"`. -/
theorem needs_quotes_amended_witness :
    chars "hello_world" ≠ [] ∧ needs_quotes (chars "hello_world") = false :=
  ⟨(needs_quotes_amended.1 (chars "hello_world") (by decide)).1, by decide⟩

/-- C5 counterexample: the claim says every string containing a double-quote
or single-quote character is emitted quoted.  `a"b` and `a'b` contain quote
characters, yet `needs_quotes` answers false and the encoder emits them
verbatim, unquoted (quote characters are absent from `YAML_INDICATORS` and
matter only at index 0 via `YAML_START_INDICATORS`). -/
theorem needs_quotes_quote_char_counterexample :
    needs_quotes (chars "a\"b") = false ∧
    to_deterministic_yaml (.vstr (chars "a\"b")) 0 = chars "a\"b" ∧
    (chars "a\"b").contains dquote = true ∧
    needs_quotes (chars "a'b") = false ∧
    to_deterministic_yaml (.vstr (chars "a'b")) 0 = chars "a'b" ∧
    (chars "a'b").contains squote = true := by
  decide

/-- The `comment_type` of a `CommentInfo` (`'line' | 'inline' | 'eol'`). -/
inductive CommentType where
  | line : CommentType
  | inline : CommentType
  | eol : CommentType
deriving DecidableEq

/-- `CommentInfo` from dyaml/core/parser.py: extracted comment text, kind,
source line, the path of the enclosing structure, and optionally the key it
is attached to. -/
structure CommentInfo where
  text : List Char
  comment_type : CommentType
  line_number : Nat
  key_path : List (List Char)
  associated_key : Option (List Char)
deriving DecidableEq

/-- The membership test of `consolidate_comments`.  Python's
conditional-expression precedence makes the second disjunct
`(len(c.key_path) == len(key_path) + 1 and c.key_path[:-1] == key_path and
c.associated_key == key_path[-1]) if key_path else None`: for the root path
it is `None` (falsy), and otherwise it selects comments recorded at a CHILD
path of `key_path` (one segment longer, extending it) whose associated key
equals `key_path`'s own last segment. -/
def comment_relevant (key_path : List (List Char)) (c : CommentInfo) : Bool :=
  c.key_path = key_path ||
    (match key_path with
     | [] => false
     | _ :: _ =>
       c.key_path.length = key_path.length + 1 &&
       c.key_path.dropLast = key_path &&
       c.associated_key = some (key_path.getLastD []))

/-- `comment.text.replace('|', '\\|')`. -/
def escape_pipes (t : List Char) : List Char :=
  (t.map (fun c => if c = '|' then [bslash, '|'] else [c])).flatten

/-- One comment's rendered part: `f"{key}: {text}"` when the associated key
is truthy (non-`None`, non-empty), else the escaped text alone. -/
def comment_part (c : CommentInfo) : List Char :=
  match c.associated_key with
  | some k =>
    if k.isEmpty then escape_pipes c.text else k ++ chars ": " ++ escape_pipes c.text
  | none => escape_pipes c.text

/-- `consolidate_comments(comments, key_path)`: the relevant comments, in
extraction order, joined with `" | "`; `None` when there are none. -/
def consolidate_comments (comments : List CommentInfo) (key_path : List (List Char)) :
    Option (List Char) :=
  let relevant := comments.filter (comment_relevant key_path)
  if relevant.isEmpty then none
  else some (joinSep (chars " | ") (relevant.map comment_part))

/-- Python `repr` of a string: quote choice and escape rules as CPython
prints them for ASCII content (printable non-ASCII scalars stay literal). -/
def pyReprStr (s : List Char) : List Char :=
  let q := if s.contains squote && !(s.contains dquote) then dquote else squote
  q :: (s.map (fun c =>
    if c = bslash then [bslash, bslash]
    else if c = q then [bslash, q]
    else if c = '\n' then [bslash, 'n']
    else if c = '\r' then [bslash, 'r']
    else if c = '\t' then [bslash, 't']
    else if c.toNat < 32 || c.toNat = 127 then bslash :: 'x' :: hex2 c.toNat
    else [c])).flatten ++ [q]

/-- Python `str` of a float (`repr` equals `str` for floats). -/
def pyFloatStr : FloatRepr → List Char
  | .fnan => chars "nan"
  | .finf => chars "inf"
  | .fninf => chars "-inf"
  | .fdec s => s

mutual
/-- Python `repr(value)` over the value model (used only through `pyStr`
inside f-string interpolation of a non-string value). -/
def pyRepr : Value → List Char
  | .vnull => chars "None"
  | .vbool b => if b then chars "True" else chars "False"
  | .vint n => intStr n
  | .vfloat r => pyFloatStr r
  | .vstr s => pyReprStr s
  | .vlist xs => '[' :: pyReprItems xs ++ [']']
  | .vdict es => lbrace :: pyReprEntries es ++ [rbrace]
/-- `", ".join(repr(x) ...)` over a sequence. -/
def pyReprItems : ValueSeq → List Char
  | .nil => []
  | .cons v .nil => pyRepr v
  | .cons v rest => pyRepr v ++ chars ", " ++ pyReprItems rest
/-- `", ".join(f"{k!r}: {v!r}" ...)` over a mapping. -/
def pyReprEntries : EntrySeq → List Char
  | .nil => []
  | .cons k v .nil => pyReprStr k ++ chars ": " ++ pyRepr v
  | .cons k v rest => pyReprStr k ++ chars ": " ++ pyRepr v ++ chars ", " ++ pyReprEntries rest
end

/-- Python `str(value)` (f-string interpolation). -/
def pyStr : Value → List Char
  | .vstr s => s
  | v => pyRepr v

/-- Python truthiness over the value model (`str(0.0)` is `"0.0"`, so the
float case tests the carried decimal text against it). -/
def truthy : Value → Bool
  | .vnull => false
  | .vbool b => b
  | .vint n => n ≠ 0
  | .vfloat r =>
    match r with
    | .fdec s => s ≠ chars "0.0"
    | _ => true
  | .vstr s => !s.isEmpty
  | .vlist .nil => false
  | .vlist (.cons _ _) => true
  | .vdict .nil => false
  | .vdict (.cons _ _ _) => true

/-- The first entry of a mapping with the given key (`data[key]`; a Python
dict holds each key at most once). -/
def findEntry : EntrySeq → List Char → Option Value
  | .nil, _ => none
  | .cons k0 v rest, k => if k0 = k then some v else findEntry rest k

mutual
/-- `add_human_fields(data, comments, path)`.  The result-dict ordering
follows Python dict semantics: when the consolidated comment text is truthy
the `$human$` entry is created first (a later `result['$human$'] = ...`
assignment for a pre-existing `$human$` key overwrites in place, keeping
first position and merging per the source's f-string); otherwise entries
keep their original order, a pre-existing `$human$` entry passing through
unrecursed. -/
def add_human_fields : Value → List CommentInfo → List (List Char) → Value
  | .vdict es, comments, path =>
    match consolidate_comments comments path with
    | some hvs =>
      if hvs.isEmpty then .vdict (ahfEntriesKeep es comments path)
      else
        match findEntry es (chars "$human$") with
        | some existing =>
          .vdict (.cons (chars "$human$")
            (if truthy existing then .vstr (pyStr existing ++ chars " | " ++ hvs)
             else .vstr hvs)
            (ahfEntriesOthers es comments path))
        | none =>
          .vdict (.cons (chars "$human$") (.vstr hvs) (ahfEntriesOthers es comments path))
    | none => .vdict (ahfEntriesKeep es comments path)
  | .vlist xs, comments, path => .vlist (ahfItems xs comments path 0)
  | v, _, _ => v
/-- The entry walk when no truthy consolidated text exists: `$human$`
entries keep their value, every other value is recursed at `path + [key]`. -/
def ahfEntriesKeep : EntrySeq → List CommentInfo → List (List Char) → EntrySeq
  | .nil, _, _ => .nil
  | .cons k v rest, comments, path =>
    if k = chars "$human$" then .cons k v (ahfEntriesKeep rest comments path)
    else .cons k (add_human_fields v comments (path ++ [k])) (ahfEntriesKeep rest comments path)
/-- The entry walk when the `$human$` entry was emitted first: `$human$`
entries are dropped (already emitted), every other value is recursed. -/
def ahfEntriesOthers : EntrySeq → List CommentInfo → List (List Char) → EntrySeq
  | .nil, _, _ => .nil
  | .cons k v rest, comments, path =>
    if k = chars "$human$" then ahfEntriesOthers rest comments path
    else .cons k (add_human_fields v comments (path ++ [k])) (ahfEntriesOthers rest comments path)
/-- The item walk (`path + [str(i)]`). -/
def ahfItems : ValueSeq → List CommentInfo → List (List Char) → Nat → ValueSeq
  | .nil, _, _, _ => .nil
  | .cons v rest, comments, path, i =>
    .cons (add_human_fields v comments (path ++ [natStr i])) (ahfItems rest comments path (i + 1))
end

mutual
/-- `add_crc32_to_human_fields(data)`: stamp every string-valued `$human$`
entry, recurse everywhere else. -/
def add_crc32_to_human_fields : Value → Value
  | .vdict es => .vdict (addCrcEntries es)
  | .vlist xs => .vlist (addCrcItems xs)
  | v => v
/-- The entry walk of `add_crc32_to_human_fields`. -/
def addCrcEntries : EntrySeq → EntrySeq
  | .nil => .nil
  | .cons k v rest =>
    match v with
    | .vstr s =>
      if k = chars "$human$" then .cons k (.vstr (add_crc32 s)) (addCrcEntries rest)
      else .cons k (.vstr s) (addCrcEntries rest)
    | _ => .cons k (add_crc32_to_human_fields v) (addCrcEntries rest)
/-- The item walk of `add_crc32_to_human_fields`. -/
def addCrcItems : ValueSeq → ValueSeq
  | .nil => .nil
  | .cons v rest => .cons (add_crc32_to_human_fields v) (addCrcItems rest)
end

mutual
/-- `strip_human_fields(data)`: drop every `$human$` entry, recurse into
every remaining value. -/
def strip_human_fields : Value → Value
  | .vdict es => .vdict (stripEntries es)
  | .vlist xs => .vlist (stripItems xs)
  | v => v
/-- The entry walk of `strip_human_fields`. -/
def stripEntries : EntrySeq → EntrySeq
  | .nil => .nil
  | .cons k v rest =>
    if k = chars "$human$" then stripEntries rest
    else .cons k (strip_human_fields v) (stripEntries rest)
/-- The item walk of `strip_human_fields`. -/
def stripItems : ValueSeq → ValueSeq
  | .nil => .nil
  | .cons v rest => .cons (strip_human_fields v) (stripItems rest)
end

/-- `convert_yaml_to_deterministic(data, comments, preserve_comments,
add_crc32_checksums)`. -/
def convert_yaml_to_deterministic (data : Value) (comments : List CommentInfo)
    (preserve_comments : Bool) (add_crc32_checksums : Bool) : Value :=
  if preserve_comments then
    let result := add_human_fields data comments []
    if add_crc32_checksums then add_crc32_to_human_fields result else result
  else strip_human_fields data

mutual
/-- Path lookup in the value model: segments are mapping keys or `str(i)`
for sequence indices, matching the paths the core operations build. -/
def getPath : Value → List (List Char) → Option Value
  | v, [] => some v
  | .vdict es, k :: rest => getPathE es k rest
  | .vlist xs, k :: rest => getPathL xs 0 k rest
  | _, _ :: _ => none
/-- `getPath` through a mapping's entries (first matching key). -/
def getPathE : EntrySeq → List Char → List (List Char) → Option Value
  | .nil, _, _ => none
  | .cons k0 v t, k, rest => if k0 = k then getPath v rest else getPathE t k rest
/-- `getPath` through a sequence's items (segment `str(i)`). -/
def getPathL : ValueSeq → Nat → List Char → List (List Char) → Option Value
  | .nil, _, _, _ => none
  | .cons v t, i, k, rest => if natStr i = k then getPath v rest else getPathL t (i + 1) k rest
end

mutual
/-- Some mapping anywhere in the tree has a `$human$` entry. -/
def hasHumanKey : Value → Bool
  | .vdict es => (entryKeys es).contains (chars "$human$") || hasHumanKeyE es
  | .vlist xs => hasHumanKeyL xs
  | _ => false
/-- `hasHumanKey` over entries. -/
def hasHumanKeyE : EntrySeq → Bool
  | .nil => false
  | .cons _ v rest => hasHumanKey v || hasHumanKeyE rest
/-- `hasHumanKey` over items. -/
def hasHumanKeyL : ValueSeq → Bool
  | .nil => false
  | .cons v rest => hasHumanKey v || hasHumanKeyL rest
end

/-- The length of a sequence. -/
def seqLength : ValueSeq → Nat
  | .nil => 0
  | .cons _ rest => seqLength rest + 1

theorem stripEntries_keys : ∀ es : EntrySeq,
    entryKeys (stripEntries es) = (entryKeys es).filter (fun k => k ≠ chars "$human$")
  | .nil => rfl
  | .cons k v rest => by
    show entryKeys (if k = chars "$human$" then stripEntries rest
      else .cons k (strip_human_fields v) (stripEntries rest))
      = (k :: entryKeys rest).filter (fun k => k ≠ chars "$human$")
    by_cases hk : k = chars "$human$"
    · rw [if_pos hk, List.filter_cons_of_neg (by simp [hk]), stripEntries_keys rest]
    · rw [if_neg hk, List.filter_cons_of_pos (by simp [hk])]
      show k :: entryKeys (stripEntries rest) = _
      rw [stripEntries_keys rest]

theorem stripItems_length : ∀ xs : ValueSeq, seqLength (stripItems xs) = seqLength xs
  | .nil => rfl
  | .cons v rest => by
    show seqLength (stripItems rest) + 1 = seqLength rest + 1
    rw [stripItems_length rest]

mutual
/-- No `$human$` entry survives `strip_human_fields`, at any depth. -/
theorem strip_no_human : ∀ v : Value, hasHumanKey (strip_human_fields v) = false
  | .vnull => rfl
  | .vbool _ => rfl
  | .vint _ => rfl
  | .vfloat _ => rfl
  | .vstr _ => rfl
  | .vlist xs => strip_no_humanL xs
  | .vdict es => by
    show ((entryKeys (stripEntries es)).contains (chars "$human$")
      || hasHumanKeyE (stripEntries es)) = false
    have h1 : (entryKeys (stripEntries es)).contains (chars "$human$") = false := by
      rw [stripEntries_keys es]
      apply contains_false_of_not_mem
      intro hm
      have := List.of_mem_filter hm
      simp at this
    rw [h1, strip_no_humanE es]
    rfl
/-- `strip_no_human` over entries. -/
theorem strip_no_humanE : ∀ es : EntrySeq, hasHumanKeyE (stripEntries es) = false
  | .nil => rfl
  | .cons k v rest => by
    show hasHumanKeyE (if k = chars "$human$" then stripEntries rest
      else .cons k (strip_human_fields v) (stripEntries rest)) = false
    by_cases hk : k = chars "$human$"
    · rw [if_pos hk]
      exact strip_no_humanE rest
    · rw [if_neg hk]
      show (hasHumanKey (strip_human_fields v) || hasHumanKeyE (stripEntries rest)) = false
      rw [strip_no_human v, strip_no_humanE rest]
      rfl
/-- `strip_no_human` over items. -/
theorem strip_no_humanL : ∀ xs : ValueSeq, hasHumanKeyL (stripItems xs) = false
  | .nil => rfl
  | .cons v rest => by
    show (hasHumanKey (strip_human_fields v) || hasHumanKeyL (stripItems rest)) = false
    rw [strip_no_human v, strip_no_humanL rest]
    rfl
end

mutual
/-- `strip_human_fields` is idempotent. -/
theorem strip_idem : ∀ v : Value,
    strip_human_fields (strip_human_fields v) = strip_human_fields v
  | .vnull => rfl
  | .vbool _ => rfl
  | .vint _ => rfl
  | .vfloat _ => rfl
  | .vstr _ => rfl
  | .vlist xs => by
    show Value.vlist (stripItems (stripItems xs)) = Value.vlist (stripItems xs)
    rw [strip_idemL xs]
  | .vdict es => by
    show Value.vdict (stripEntries (stripEntries es)) = Value.vdict (stripEntries es)
    rw [strip_idemE es]
/-- `strip_idem` over entries. -/
theorem strip_idemE : ∀ es : EntrySeq, stripEntries (stripEntries es) = stripEntries es
  | .nil => rfl
  | .cons k v rest => by
    by_cases hk : k = chars "$human$"
    · show stripEntries (if k = chars "$human$" then stripEntries rest
        else .cons k (strip_human_fields v) (stripEntries rest))
        = if k = chars "$human$" then stripEntries rest
          else .cons k (strip_human_fields v) (stripEntries rest)
      rw [if_pos hk, strip_idemE rest]
    · show stripEntries (if k = chars "$human$" then stripEntries rest
        else .cons k (strip_human_fields v) (stripEntries rest))
        = if k = chars "$human$" then stripEntries rest
          else .cons k (strip_human_fields v) (stripEntries rest)
      rw [if_neg hk]
      show (if k = chars "$human$" then stripEntries (stripEntries rest)
        else .cons k (strip_human_fields (strip_human_fields v))
          (stripEntries (stripEntries rest))) = _
      rw [if_neg hk, strip_idem v, strip_idemE rest]
/-- `strip_idem` over items. -/
theorem strip_idemL : ∀ xs : ValueSeq, stripItems (stripItems xs) = stripItems xs
  | .nil => rfl
  | .cons v rest => by
    show ValueSeq.cons (strip_human_fields (strip_human_fields v))
      (stripItems (stripItems rest)) = ValueSeq.cons (strip_human_fields v) (stripItems rest)
    rw [strip_idem v, strip_idemL rest]
end

mutual
/-- Every value reachable through a `$human$`-free path is preserved by
`strip_human_fields` (up to recursively stripping its own subtree). -/
theorem strip_getPath : ∀ (v : Value) (q : List (List Char)) (w : Value),
    (∀ seg ∈ q, seg ≠ chars "$human$") → getPath v q = some w →
    getPath (strip_human_fields v) q = some (strip_human_fields w)
  | v, [], w, _, h => by
    cases v <;> (have hvw := Option.some.inj h; subst hvw; rfl)
  | .vdict es, k :: rest, w, hseg, h => by
    have hk : k ≠ chars "$human$" := hseg k (List.mem_cons_self k rest)
    have hrest : ∀ seg ∈ rest, seg ≠ chars "$human$" := fun seg hs =>
      hseg seg (List.mem_cons_of_mem k hs)
    exact strip_getPathE es k rest w hk hrest h
  | .vlist xs, k :: rest, w, hseg, h => by
    have hrest : ∀ seg ∈ rest, seg ≠ chars "$human$" := fun seg hs =>
      hseg seg (List.mem_cons_of_mem k hs)
    exact strip_getPathL xs 0 k rest w hrest h
  | .vnull, _ :: _, w, _, h => Option.noConfusion h
  | .vbool _, _ :: _, w, _, h => Option.noConfusion h
  | .vint _, _ :: _, w, _, h => Option.noConfusion h
  | .vfloat _, _ :: _, w, _, h => Option.noConfusion h
  | .vstr _, _ :: _, w, _, h => Option.noConfusion h
/-- `strip_getPath` over entries. -/
theorem strip_getPathE : ∀ (es : EntrySeq) (k : List Char) (rest : List (List Char)) (w : Value),
    k ≠ chars "$human$" → (∀ seg ∈ rest, seg ≠ chars "$human$") →
    getPathE es k rest = some w →
    getPathE (stripEntries es) k rest = some (strip_human_fields w)
  | .nil, _, _, _, _, _, h => Option.noConfusion h
  | .cons k0 v t, k, rest, w, hk, hrest, h => by
    by_cases hk0 : k0 = chars "$human$"
    · have hne : ¬(k0 = k) := fun he => hk (he ▸ hk0)
      have h2 : getPathE t k rest = some w := by
        have : (if k0 = k then getPath v rest else getPathE t k rest) = some w := h
        rw [if_neg hne] at this
        exact this
      show getPathE (if k0 = chars "$human$" then stripEntries t
        else .cons k0 (strip_human_fields v) (stripEntries t)) k rest = _
      rw [if_pos hk0]
      exact strip_getPathE t k rest w hk hrest h2
    · show getPathE (if k0 = chars "$human$" then stripEntries t
        else .cons k0 (strip_human_fields v) (stripEntries t)) k rest = _
      rw [if_neg hk0]
      by_cases hke : k0 = k
      · have h2 : getPath v rest = some w := by
          have : (if k0 = k then getPath v rest else getPathE t k rest) = some w := h
          rw [if_pos hke] at this
          exact this
        show (if k0 = k then getPath (strip_human_fields v) rest
          else getPathE (stripEntries t) k rest) = _
        rw [if_pos hke]
        exact strip_getPath v rest w hrest h2
      · have h2 : getPathE t k rest = some w := by
          have : (if k0 = k then getPath v rest else getPathE t k rest) = some w := h
          rw [if_neg hke] at this
          exact this
        show (if k0 = k then getPath (strip_human_fields v) rest
          else getPathE (stripEntries t) k rest) = _
        rw [if_neg hke]
        exact strip_getPathE t k rest w hk hrest h2
/-- `strip_getPath` over items. -/
theorem strip_getPathL : ∀ (xs : ValueSeq) (i : Nat) (k : List Char)
    (rest : List (List Char)) (w : Value),
    (∀ seg ∈ rest, seg ≠ chars "$human$") →
    getPathL xs i k rest = some w →
    getPathL (stripItems xs) i k rest = some (strip_human_fields w)
  | .nil, _, _, _, _, _, h => Option.noConfusion h
  | .cons v t, i, k, rest, w, hrest, h => by
    by_cases hik : natStr i = k
    · have h2 : getPath v rest = some w := by
        have : (if natStr i = k then getPath v rest else getPathL t (i + 1) k rest) = some w := h
        rw [if_pos hik] at this
        exact this
      show (if natStr i = k then getPath (strip_human_fields v) rest
        else getPathL (stripItems t) (i + 1) k rest) = _
      rw [if_pos hik]
      exact strip_getPath v rest w hrest h2
    · have h2 : getPathL t (i + 1) k rest = some w := by
        have : (if natStr i = k then getPath v rest else getPathL t (i + 1) k rest) = some w := h
        rw [if_neg hik] at this
        exact this
      show (if natStr i = k then getPath (strip_human_fields v) rest
        else getPathL (stripItems t) (i + 1) k rest) = _
      rw [if_neg hik]
      exact strip_getPathL t (i + 1) k rest w hrest h2
end

/-- C9: the strip operation (synthesis with `preserve = false`) removes
every `$human$` entry from every mapping at every depth, is total by
construction and idempotent, and leaves all other data untouched: every
value at a `$human$`-free path is preserved (up to stripping its own
subtree), a stripped mapping's key list is exactly the original list with
`$human$` filtered out (order kept), and sequence lengths are unchanged. -/
theorem strip_human_fields_spec :
    (∀ v, hasHumanKey (strip_human_fields v) = false) ∧
    (∀ v, strip_human_fields (strip_human_fields v) = strip_human_fields v) ∧
    (∀ v cs b, convert_yaml_to_deterministic v cs false b = strip_human_fields v) ∧
    (∀ (v : Value) (q : List (List Char)) (w : Value),
      (∀ seg ∈ q, seg ≠ chars "$human$") → getPath v q = some w →
      getPath (strip_human_fields v) q = some (strip_human_fields w)) ∧
    (∀ es, entryKeys (stripEntries es)
      = (entryKeys es).filter (fun k => k ≠ chars "$human$")) ∧
    (∀ xs, seqLength (stripItems xs) = seqLength xs) :=
  ⟨strip_no_human, strip_idem, fun _ _ _ => rfl, strip_getPath, stripEntries_keys,
   stripItems_length⟩

/-- Witness for C9 on `{"$human$": "note", "a": {"$human$": "x", "b": 1}}`
at path `["a"]`. -/
theorem strip_human_fields_spec_witness :
    getPath (strip_human_fields
      (.vdict (.cons (chars "$human$") (.vstr (chars "note"))
        (.cons (chars "a") (.vdict (.cons (chars "$human$") (.vstr (chars "x"))
          (.cons (chars "b") (.vint 1) .nil))) .nil)))) [chars "a"]
      = some (strip_human_fields
        (.vdict (.cons (chars "$human$") (.vstr (chars "x"))
          (.cons (chars "b") (.vint 1) .nil)))) :=
  strip_human_fields_spec.2.2.2.1
    (.vdict (.cons (chars "$human$") (.vstr (chars "note"))
      (.cons (chars "a") (.vdict (.cons (chars "$human$") (.vstr (chars "x"))
        (.cons (chars "b") (.vint 1) .nil))) .nil)))
    [chars "a"]
    (.vdict (.cons (chars "$human$") (.vstr (chars "x"))
      (.cons (chars "b") (.vint 1) .nil)))
    (by decide) (by decide)

/-- C6's CLAIMED membership rule, written from the claim's words: a record
recorded exactly at `P`, or a trailing record recorded at P's PARENT whose
associated key equals P's own last key. -/
def claim_relevant (P : List (List Char)) (c : CommentInfo) : Bool :=
  c.key_path = P ||
    (!P.isEmpty && c.key_path = P.dropLast && c.associated_key = some (P.getLastD []))

/-- The AMENDED membership rule, written from the amended claim's words: a
record recorded exactly at `P`, or (for non-root `P`) a record recorded at
a CHILD path of `P` (P extended by one segment) whose associated key equals
P's own last key. -/
def amended_relevant (P : List (List Char)) (c : CommentInfo) : Bool :=
  c.key_path = P ||
    (!P.isEmpty && P.isPrefixOf c.key_path && c.key_path.length = P.length + 1 &&
     c.associated_key = some (P.getLastD []))

theorem dropLast_eq_iff_prefix {l P : List (List Char)} (hlen : l.length = P.length + 1) :
    l.dropLast = P ↔ P <+: l := by
  constructor
  · intro h
    have hne : l ≠ [] := by
      intro he
      rw [he] at hlen
      exact absurd hlen (by simp)
    rw [← h]
    exact ⟨[l.getLast hne], List.dropLast_append_getLast hne⟩
  · rintro ⟨t, ht⟩
    have htl : t.length = 1 := by
      have := congrArg List.length ht
      rw [List.length_append] at this
      omega
    cases t with
    | nil => simp at htl
    | cons x ts =>
      cases ts with
      | nil =>
        rw [← ht]
        exact List.dropLast_concat
      | cons y ts2 => simp at htl

theorem comment_relevant_eq_amended (P : List (List Char)) (c : CommentInfo) :
    comment_relevant P c = amended_relevant P c := by
  unfold comment_relevant amended_relevant
  cases P with
  | nil => simp
  | cons p ps =>
    congr 1
    by_cases hlen : c.key_path.length = (p :: ps).length + 1
    · have hiff := dropLast_eq_iff_prefix (P := p :: ps) hlen
      by_cases hdp : c.key_path.dropLast = p :: ps
      · have hpre : List.isPrefixOf (p :: ps) c.key_path = true :=
          List.isPrefixOf_iff_prefix.mpr (hiff.mp hdp)
        simp [hlen, hdp, hpre]
      · have hpre : List.isPrefixOf (p :: ps) c.key_path = false := by
          cases hb : List.isPrefixOf (p :: ps) c.key_path with
          | false => rfl
          | true => exact absurd (hiff.mpr (List.isPrefixOf_iff_prefix.mp hb)) hdp
        simp [hdp, hpre]
    · have hd : decide (c.key_path.length = ps.length + 1 + 1) = false := by
        simp only [decide_eq_false_iff_not]
        exact hlen
      simp [hd]

/-- `consolidate_comments` in terms of the amended membership rule. -/
theorem consolidate_comments_eq_amended (cs : List CommentInfo) (P : List (List Char)) :
    consolidate_comments cs P =
      (if (cs.filter (amended_relevant P)).isEmpty then none
       else some (joinSep (chars " | ") ((cs.filter (amended_relevant P)).map comment_part))) := by
  unfold consolidate_comments
  rw [List.filter_congr (fun c _ => comment_relevant_eq_amended P c)]

theorem getPath_nil (v : Value) : getPath v [] = some v := by
  cases v <;> rfl

/-- For a non-`$human$` key, looking up through the others-walk equals
looking up through the keep-walk (they differ only on `$human$` entries). -/
theorem others_lookup_eq_keep : ∀ (es : EntrySeq) (cs : List CommentInfo)
    (path : List (List Char)) (k : List Char) (rest : List (List Char)),
    k ≠ chars "$human$" →
    getPathE (ahfEntriesOthers es cs path) k rest = getPathE (ahfEntriesKeep es cs path) k rest
  | .nil, _, _, _, _, _ => rfl
  | .cons k0 v t, cs, path, k, rest, hk => by
    by_cases hk0 : k0 = chars "$human$"
    · have hne : ¬(k0 = k) := fun he => hk (he ▸ hk0)
      show getPathE (if k0 = chars "$human$" then ahfEntriesOthers t cs path
        else .cons k0 (add_human_fields v cs (path ++ [k0])) (ahfEntriesOthers t cs path)) k rest
        = getPathE (if k0 = chars "$human$" then .cons k0 v (ahfEntriesKeep t cs path)
        else .cons k0 (add_human_fields v cs (path ++ [k0])) (ahfEntriesKeep t cs path)) k rest
      rw [if_pos hk0, if_pos hk0]
      show _ = (if k0 = k then getPath v rest else getPathE (ahfEntriesKeep t cs path) k rest)
      rw [if_neg hne]
      exact others_lookup_eq_keep t cs path k rest hk
    · show getPathE (if k0 = chars "$human$" then ahfEntriesOthers t cs path
        else .cons k0 (add_human_fields v cs (path ++ [k0])) (ahfEntriesOthers t cs path)) k rest
        = getPathE (if k0 = chars "$human$" then .cons k0 v (ahfEntriesKeep t cs path)
        else .cons k0 (add_human_fields v cs (path ++ [k0])) (ahfEntriesKeep t cs path)) k rest
      rw [if_neg hk0, if_neg hk0]
      show (if k0 = k then getPath (add_human_fields v cs (path ++ [k0])) rest
        else getPathE (ahfEntriesOthers t cs path) k rest)
        = (if k0 = k then getPath (add_human_fields v cs (path ++ [k0])) rest
        else getPathE (ahfEntriesKeep t cs path) k rest)
      by_cases hke : k0 = k
      · rw [if_pos hke, if_pos hke]
      · rw [if_neg hke, if_neg hke]
        exact others_lookup_eq_keep t cs path k rest hk

/-- Lookup of a non-`$human$` key through `add_human_fields` of a mapping
always goes through the keep-walk, whichever branch the consolidation
takes. -/
theorem ahf_dict_lookup (es : EntrySeq) (cs : List CommentInfo) (path : List (List Char))
    (k : List Char) (rest : List (List Char)) (hk : k ≠ chars "$human$") :
    getPath (add_human_fields (.vdict es) cs path) (k :: rest)
      = getPathE (ahfEntriesKeep es cs path) k rest := by
  have hne : ¬(chars "$human$" = k) := fun he => hk he.symm
  unfold add_human_fields
  split
  · split
    · rfl
    · split
      · show (if chars "$human$" = k then _ else getPathE (ahfEntriesOthers es cs path) k rest) = _
        rw [if_neg hne]
        exact others_lookup_eq_keep es cs path k rest hk
      · show (if chars "$human$" = k then _ else getPathE (ahfEntriesOthers es cs path) k rest) = _
        rw [if_neg hne]
        exact others_lookup_eq_keep es cs path k rest hk
  · rfl

mutual
/-- `add_human_fields` transforms the node at every `$human$`-free path `q`
into exactly the recursion's own result at path `path ++ q`. -/
theorem ahf_getPath : ∀ (v : Value) (cs : List CommentInfo) (path q : List (List Char)) (w : Value),
    (∀ seg ∈ q, seg ≠ chars "$human$") → getPath v q = some w →
    getPath (add_human_fields v cs path) q = some (add_human_fields w cs (path ++ q))
  | v, cs, path, [], w, _, h => by
    rw [getPath_nil] at h
    have hvw := Option.some.inj h
    subst hvw
    rw [getPath_nil, List.append_nil]
  | .vdict es, cs, path, k :: rest, w, hseg, h => by
    have hk : k ≠ chars "$human$" := hseg k (List.mem_cons_self k rest)
    have hrest : ∀ seg ∈ rest, seg ≠ chars "$human$" := fun seg hs =>
      hseg seg (List.mem_cons_of_mem k hs)
    have h0 : getPathE es k rest = some w := h
    rw [ahf_dict_lookup es cs path k rest hk]
    exact ahf_getPathE_keep es cs path k rest w hk hrest h0
  | .vlist xs, cs, path, k :: rest, w, hseg, h => by
    have hrest : ∀ seg ∈ rest, seg ≠ chars "$human$" := fun seg hs =>
      hseg seg (List.mem_cons_of_mem k hs)
    exact ahf_getPathL xs cs path 0 k rest w hrest h
  | .vnull, _, _, _ :: _, w, _, h => Option.noConfusion h
  | .vbool _, _, _, _ :: _, w, _, h => Option.noConfusion h
  | .vint _, _, _, _ :: _, w, _, h => Option.noConfusion h
  | .vfloat _, _, _, _ :: _, w, _, h => Option.noConfusion h
  | .vstr _, _, _, _ :: _, w, _, h => Option.noConfusion h
/-- `ahf_getPath` over the keep-entries walk. -/
theorem ahf_getPathE_keep : ∀ (es : EntrySeq) (cs : List CommentInfo)
    (path : List (List Char)) (k : List Char) (rest : List (List Char)) (w : Value),
    k ≠ chars "$human$" → (∀ seg ∈ rest, seg ≠ chars "$human$") →
    getPathE es k rest = some w →
    getPathE (ahfEntriesKeep es cs path) k rest
      = some (add_human_fields w cs (path ++ k :: rest))
  | .nil, _, _, _, _, _, _, _, h => Option.noConfusion h
  | .cons k0 v t, cs, path, k, rest, w, hk, hrest, h => by
    by_cases hk0 : k0 = chars "$human$"
    · have hne : ¬(k0 = k) := fun he => hk (he ▸ hk0)
      have h2 : getPathE t k rest = some w := by
        have h3 : (if k0 = k then getPath v rest else getPathE t k rest) = some w := h
        rw [if_neg hne] at h3
        exact h3
      show getPathE (if k0 = chars "$human$" then .cons k0 v (ahfEntriesKeep t cs path)
        else .cons k0 (add_human_fields v cs (path ++ [k0])) (ahfEntriesKeep t cs path)) k rest = _
      rw [if_pos hk0]
      show (if k0 = k then getPath v rest else getPathE (ahfEntriesKeep t cs path) k rest) = _
      rw [if_neg hne]
      exact ahf_getPathE_keep t cs path k rest w hk hrest h2
    · show getPathE (if k0 = chars "$human$" then .cons k0 v (ahfEntriesKeep t cs path)
        else .cons k0 (add_human_fields v cs (path ++ [k0])) (ahfEntriesKeep t cs path)) k rest = _
      rw [if_neg hk0]
      by_cases hke : k0 = k
      · have h2 : getPath v rest = some w := by
          have h3 : (if k0 = k then getPath v rest else getPathE t k rest) = some w := h
          rw [if_pos hke] at h3
          exact h3
        show (if k0 = k then getPath (add_human_fields v cs (path ++ [k0])) rest
          else getPathE (ahfEntriesKeep t cs path) k rest) = _
        rw [if_pos hke]
        have hrec := ahf_getPath v cs (path ++ [k0]) rest w hrest h2
        rw [hrec, hke]
        rw [List.append_assoc]
        rfl
      · have h2 : getPathE t k rest = some w := by
          have h3 : (if k0 = k then getPath v rest else getPathE t k rest) = some w := h
          rw [if_neg hke] at h3
          exact h3
        show (if k0 = k then getPath (add_human_fields v cs (path ++ [k0])) rest
          else getPathE (ahfEntriesKeep t cs path) k rest) = _
        rw [if_neg hke]
        exact ahf_getPathE_keep t cs path k rest w hk hrest h2
/-- `ahf_getPath` over the items walk. -/
theorem ahf_getPathL : ∀ (xs : ValueSeq) (cs : List CommentInfo)
    (path : List (List Char)) (i : Nat) (k : List Char) (rest : List (List Char)) (w : Value),
    (∀ seg ∈ rest, seg ≠ chars "$human$") →
    getPathL xs i k rest = some w →
    getPathL (ahfItems xs cs path i) i k rest
      = some (add_human_fields w cs (path ++ k :: rest))
  | .nil, _, _, _, _, _, _, _, h => Option.noConfusion h
  | .cons v t, cs, path, i, k, rest, w, hrest, h => by
    by_cases hik : natStr i = k
    · have h2 : getPath v rest = some w := by
        have h3 : (if natStr i = k then getPath v rest else getPathL t (i + 1) k rest) = some w := h
        rw [if_pos hik] at h3
        exact h3
      show (if natStr i = k then getPath (add_human_fields v cs (path ++ [natStr i])) rest
        else getPathL (ahfItems t cs path (i + 1)) (i + 1) k rest) = _
      rw [if_pos hik]
      have hrec := ahf_getPath v cs (path ++ [natStr i]) rest w hrest h2
      rw [hrec, hik]
      rw [List.append_assoc]
      rfl
    · have h2 : getPathL t (i + 1) k rest = some w := by
        have h3 : (if natStr i = k then getPath v rest else getPathL t (i + 1) k rest) = some w := h
        rw [if_neg hik] at h3
        exact h3
      show (if natStr i = k then getPath (add_human_fields v cs (path ++ [natStr i])) rest
        else getPathL (ahfItems t cs path (i + 1)) (i + 1) k rest) = _
      rw [if_neg hik]
      exact ahf_getPathL t cs path (i + 1) k rest w hrest h2
end

/-- C6 (amended): with `preserve` true, the records consolidated into the
annotation field of the mapping node at path `P` are exactly those whose
recorded path equals `P`, plus — for non-root `P` — those recorded at a
CHILD path of `P` (P extended by one segment) whose associated key equals
P's own last key; and the consolidated text is installed as the `$human$`
entry of exactly that node. -/
theorem consolidate_comments_amended :
    (∀ (P : List (List Char)) (c : CommentInfo),
      comment_relevant P c = amended_relevant P c) ∧
    (∀ (cs : List CommentInfo) (P : List (List Char)),
      consolidate_comments cs P =
        (if (cs.filter (amended_relevant P)).isEmpty then none
         else some (joinSep (chars " | ")
           ((cs.filter (amended_relevant P)).map comment_part)))) ∧
    (∀ (data : Value) (cs : List CommentInfo) (P : List (List Char))
       (es : EntrySeq) (hvs : List Char),
      (∀ seg ∈ P, seg ≠ chars "$human$") →
      getPath data P = some (.vdict es) →
      findEntry es (chars "$human$") = none →
      consolidate_comments cs P = some hvs → hvs.isEmpty = false →
      getPath (add_human_fields data cs []) P
        = some (.vdict (.cons (chars "$human$") (.vstr hvs) (ahfEntriesOthers es cs P)))) := by
  refine ⟨comment_relevant_eq_amended, consolidate_comments_eq_amended, ?_⟩
  intro data cs P es hvs hseg hget hfind hcons hemp
  have hmain := ahf_getPath data cs [] P (.vdict es) hseg hget
  rw [List.nil_append] at hmain
  rw [hmain]
  have hred : add_human_fields (.vdict es) cs P
      = .vdict (.cons (chars "$human$") (.vstr hvs) (ahfEntriesOthers es cs P)) := by
    unfold add_human_fields
    rw [hcons]
    show (if hvs.isEmpty = true then Value.vdict (ahfEntriesKeep es cs P)
      else match findEntry es (chars "$human$") with
        | some existing => Value.vdict (.cons (chars "$human$")
            (if truthy existing = true then Value.vstr (pyStr existing ++ chars " | " ++ hvs)
             else Value.vstr hvs) (ahfEntriesOthers es cs P))
        | none => Value.vdict (.cons (chars "$human$") (.vstr hvs)
            (ahfEntriesOthers es cs P))) = _
    rw [if_neg (fun hx => by rw [hemp] at hx; exact Bool.noConfusion hx), hfind]
  rw [hred]

/-- C6 counterexample: the claim attaches a trailing record recorded at P's
PARENT (here: path `[]`, associated key `"k"`) to the annotation field of
the node at `P = ["k"]`.  The code does not: `consolidate_comments` collects
nothing at `["k"]`, and the record lands in the ROOT mapping's `$human$`
field instead (rendered `"k: note"`). -/
theorem consolidate_comments_counterexample :
    claim_relevant [chars "k"]
      ⟨chars "note", .line, 0, [], some (chars "k")⟩ = true ∧
    consolidate_comments [⟨chars "note", .line, 0, [], some (chars "k")⟩] [chars "k"] = none ∧
    consolidate_comments [⟨chars "note", .line, 0, [], some (chars "k")⟩] [] =
      some (chars "k: note") ∧
    add_human_fields (.vdict (.cons (chars "k") (.vdict .nil) .nil))
      [⟨chars "note", .line, 0, [], some (chars "k")⟩] []
      = .vdict (.cons (chars "$human$") (.vstr (chars "k: note"))
          (.cons (chars "k") (.vdict .nil) .nil)) := by
  decide

/-- Witness for C6's amended theorem: a standalone record at `["a"]`
consolidates into the `$human$` field of the node at `["a"]`. -/
theorem consolidate_comments_amended_witness :
    getPath (add_human_fields
      (.vdict (.cons (chars "a") (.vdict (.cons (chars "x") (.vint 1) .nil)) .nil))
      [⟨chars "hello", .line, 1, [chars "a"], none⟩] []) [chars "a"]
      = some (.vdict (.cons (chars "$human$") (.vstr (chars "hello"))
          (ahfEntriesOthers (.cons (chars "x") (.vint 1) .nil)
            [⟨chars "hello", .line, 1, [chars "a"], none⟩] [chars "a"]))) :=
  consolidate_comments_amended.2.2
    (.vdict (.cons (chars "a") (.vdict (.cons (chars "x") (.vint 1) .nil)) .nil))
    [⟨chars "hello", .line, 1, [chars "a"], none⟩]
    [chars "a"]
    (.cons (chars "x") (.vint 1) .nil)
    (chars "hello")
    (by decide) (by decide) (by decide) (by decide) (by decide)

/-! ### `dyaml/core/schema.py`: encoding instructions (x-encoding) -/

/-- The number of set bits of one UTF-8 byte (`bin(b).count('1')` for
`0 ≤ b < 256`). -/
def popcount8 (b : Nat) : Nat :=
  b / 128 % 2 + b / 64 % 2 + b / 32 % 2 + b / 16 % 2 +
  b / 8 % 2 + b / 4 % 2 + b / 2 % 2 + b % 2

/-- `_calculate_parity(value)`: set bits of the UTF-8 encoding, modulo 2. -/
def calculate_parity (value : List Char) : Nat :=
  (((utf8 value).map popcount8).foldl (fun a b => a + b) 0) % 2

/-- `_validate_parity(value, expected_parity)`: the expected value came from
`int()` and may be any integer. -/
def validate_parity (value : List Char) (expected_parity : Int) : Bool :=
  decide ((calculate_parity value : Int) = expected_parity)

/-- `str.lower()`, character-wise (the ASCII fragment of Python's casing,
which is character-wise there). -/
def pyLower (s : List Char) : List Char := s.map Char.toLower

/-- `str.upper()`, character-wise (ASCII fragment). -/
def pyUpper (s : List Char) : List Char := s.map Char.toUpper

/-- A digit run with single underscores strictly between digits, accumulating
the decimal value; `none` when the run is malformed. -/
def pyDigitsAux : List Char → Nat → Option Nat
  | [], acc => some acc
  | '_' :: rest, acc =>
    match rest with
    | c :: rest2 =>
      if c.isDigit then pyDigitsAux rest2 (acc * 10 + (c.toNat - 48)) else none
    | [] => none
  | c :: rest, acc =>
    if c.isDigit then pyDigitsAux rest (acc * 10 + (c.toNat - 48)) else none

/-- `int(s)` on text: surrounding whitespace, one optional sign, then ASCII
decimal digits with single underscores between digits; `none` models a raised
`ValueError`.  (Python also accepts non-ASCII decimal digits; the digit runs
this layer parses come from ASCII `[parity:<bit>]` markers.) -/
def pyInt (s : List Char) : Option Int :=
  let t := pyStrip s
  match t with
  | [] => none
  | '-' :: rest =>
    match rest with
    | [] => none
    | '_' :: _ => none
    | _ => (pyDigitsAux rest 0).map (fun n => -(n : Int))
  | '+' :: rest =>
    match rest with
    | [] => none
    | '_' :: _ => none
    | _ => (pyDigitsAux rest 0).map (fun n => (n : Int))
  | '_' :: _ => none
  | _ => (pyDigitsAux t 0).map (fun n => (n : Int))

/-- `hay.rfind(needle)`: the greatest index at which `needle` occurs, with
`none` standing for Python's `-1`. -/
def pyRfind (needle hay : List Char) : Option Nat :=
  ((List.range (hay.length + 1)).filter
    (fun i => needle.isPrefixOf (hay.drop i))).getLast?

/-- Membership of a value in a sequence (Python `x in list` with `==`;
equality between values of different runtime types is `False`). -/
def vseqContains : ValueSeq → Value → Bool
  | .nil, _ => false
  | .cons v rest, x => decide (v = x) || vseqContains rest x

/-- Python `needle in container` for a text needle: key lookup in a dict,
element equality in a list, substring test in a string; `TypeError` (the
error channel) on every other value. -/
def pyInOp (needle : List Char) : Value → Except Unit Bool
  | .vdict es => .ok (findEntry es needle).isSome
  | .vlist xs => .ok (vseqContains xs (.vstr needle))
  | .vstr t => .ok (substrOf needle t)
  | _ => .error ()

/-- Python `container[key]` for a text key: dict lookup (`KeyError` when the
key is absent), `TypeError` on any other container. -/
def pySubscriptStr : Value → List Char → Except Unit Value
  | .vdict es, k =>
    match findEntry es k with
    | some v => .ok v
    | none => .error ()
  | _, _ => .error ()

/-- Python `container.get(key, default)`: defined on dicts only
(`AttributeError` otherwise). -/
def pyGet : Value → List Char → Value → Except Unit Value
  | .vdict es, k, dflt => .ok ((findEntry es k).getD dflt)
  | _, _, _ => .error ()

/-- Python `d.get(key)` with the implicit `None` default: a stored `None`
and an absent key are indistinguishable, both give `None`. -/
def dictGetOpt (es : EntrySeq) (k : List Char) : Option Value :=
  match findEntry es k with
  | some .vnull => none
  | some v => some v
  | none => none

/-- One loop step of `_get_encoding_instructions`: `ok (some next)` continues
the walk, `ok none` is the source's early `return None`, `error` a raised
`TypeError`/`KeyError`/`AttributeError` from probing a non-dict schema node. -/
def schemaNavStep (current : Value) (key : List Char) : Except Unit (Option Value) :=
  match pyInOp (chars "properties") current with
  | .error e => .error e
  | .ok true =>
    match pySubscriptStr current (chars "properties") with
    | .error e => .error e
    | .ok props =>
      match pyInOp key props with
      | .error e => .error e
      | .ok true =>
        match pySubscriptStr props key with
        | .error e => .error e
        | .ok nxt => .ok (some nxt)
      | .ok false => .ok none
  | .ok false =>
    match pyInOp (chars "items") current with
    | .error e => .error e
    | .ok true =>
      match pyGet current (chars "items") (.vdict .nil) with
      | .error e => .error e
      | .ok items =>
        match pyInOp (chars "properties") items with
        | .error e => .error e
        | .ok true =>
          match pySubscriptStr current (chars "items") with
          | .error e => .error e
          | .ok itemsSub =>
            match pySubscriptStr itemsSub (chars "properties") with
            | .error e => .error e
            | .ok props2 =>
              match pyInOp key props2 with
              | .error e => .error e
              | .ok true =>
                match pySubscriptStr props2 key with
                | .error e => .error e
                | .ok nxt => .ok (some nxt)
              | .ok false => .ok none
        | .ok false => .ok none
    | .ok false => .ok none

/-- `_get_encoding_instructions(schema, path)`: walk `properties` / `items`
down the path, then `current.get('x-encoding')`. -/
def get_encoding_instructions : Value → List (List Char) → Except Unit (Option Value)
  | current, [] =>
    match current with
    | .vdict es => .ok (dictGetOpt es (chars "x-encoding"))
    | _ => .error ()
  | current, key :: rest =>
    match schemaNavStep current key with
    | .error e => .error e
    | .ok (some nxt) => get_encoding_instructions nxt rest
    | .ok none => .ok none

/-- Python truthiness of an optional lookup (`dict.get` result). -/
def optTruthy : Option Value → Bool
  | none => false
  | some v => truthy v

/-- `_apply_encoding_instruction(value, instruction, path)`: non-strings pass
through untouched; a non-dict instruction raises (`AttributeError` on `.get`);
otherwise the existing crc32 marker is stripped, case transforms apply, then
`add_crc32`, then a `[parity:<bit>]` suffix over the final text. -/
def apply_encoding_instruction (value : Value) (instruction : Value) : Except Unit Value :=
  match value with
  | .vstr s =>
    match instruction with
    | .vdict inst =>
      let content := (extract_crc32 s).2
      let r1 :=
        if optTruthy (findEntry inst (chars "lowercase")) then pyLower content
        else if optTruthy (findEntry inst (chars "uppercase")) then pyUpper content
        else content
      let r2 := if optTruthy (findEntry inst (chars "crc32")) then add_crc32 r1 else r1
      let r3 :=
        if optTruthy (findEntry inst (chars "parity")) then
          r2 ++ chars "[parity:" ++ natStr (calculate_parity r2) ++ [']']
        else r2
      .ok (.vstr r3)
    | _ => .error ()
  | v => .ok v

mutual
/-- `apply_encoding_instructions(data, schema, path)`: the directive for the
current path is computed first (so its exceptions propagate even at container
nodes), dicts and lists recurse with the key / `str(i)` appended to the path,
and a scalar is rewritten when a truthy directive applies to it. -/
def apply_encoding_instructions (data schema : Value) (path : List (List Char)) :
    Except Unit Value :=
  match get_encoding_instructions schema path with
  | .error e => .error e
  | .ok encoding =>
    match data with
    | .vdict es =>
      match applyEncEntries es schema path with
      | .error e => .error e
      | .ok es2 => .ok (.vdict es2)
    | .vlist xs =>
      match applyEncItems xs schema path 0 with
      | .error e => .error e
      | .ok xs2 => .ok (.vlist xs2)
    | v =>
      match encoding with
      | some inst => if truthy inst then apply_encoding_instruction v inst else .ok v
      | none => .ok v
/-- The entry walk of `apply_encoding_instructions` (`path + [str(key)]`). -/
def applyEncEntries (es : EntrySeq) (schema : Value) (path : List (List Char)) :
    Except Unit EntrySeq :=
  match es with
  | .nil => .ok .nil
  | .cons k v rest =>
    match apply_encoding_instructions v schema (path ++ [k]) with
    | .error e => .error e
    | .ok v2 =>
      match applyEncEntries rest schema path with
      | .error e => .error e
      | .ok rest2 => .ok (.cons k v2 rest2)
/-- The item walk of `apply_encoding_instructions` (`path + [str(i)]`). -/
def applyEncItems (xs : ValueSeq) (schema : Value) (path : List (List Char)) (i : Nat) :
    Except Unit ValueSeq :=
  match xs with
  | .nil => .ok .nil
  | .cons v rest =>
    match apply_encoding_instructions v schema (path ++ [natStr i]) with
    | .error e => .error e
    | .ok v2 =>
      match applyEncItems rest schema path (i + 1) with
      | .error e => .error e
      | .ok rest2 => .ok (.cons v2 rest2)
end

/-- `str()` of an optional message interpolated into an f-string (`None`
prints as `None`). -/
def optMsgStr : Option (List Char) → List Char
  | some m => m
  | none => chars "None"

/-- The scalar branch of `validate_encoding_instructions` for a string value
under a truthy directive.  The directive must be a dict (`AttributeError`
otherwise).  A truthy `crc32` flag re-runs `validate_crc32` (absence of a
marker is not an error there).  A truthy `parity` flag requires some
occurrence of `[parity:` anywhere in the value ("Missing parity check" when
there is none); it then takes the LAST occurrence, parses the text before
the next `]` with `int()` ("Invalid parity format" on failure), recomputes
parity over everything before the occurrence and reports "Parity check
failed" on mismatch. -/
def scalarEncErrors (s : List Char) (encoding : Value) (path : List (List Char)) :
    Except Unit (List (List Char)) :=
  match encoding with
  | .vdict inst =>
    let path_str := if path.isEmpty then chars "root" else pathDots path
    let crcErrs :=
      if optTruthy (findEntry inst (chars "crc32")) then
        match validate_crc32 s with
        | (true, _) => []
        | (false, msg) => [path_str ++ chars ": CRC32 validation failed: " ++ optMsgStr msg]
      else []
    let parityErrs :=
      if optTruthy (findEntry inst (chars "parity")) then
        if substrOf (chars "[parity:") s then
          match pyRfind (chars "[parity:") s with
          | some parity_start =>
            match pyInt ((splitOnChar ']' (s.drop (parity_start + 8))).headD []) with
            | some expected_parity =>
              if validate_parity (s.take parity_start) expected_parity then []
              else [path_str ++ chars ": Parity check failed"]
            | none => [path_str ++ chars ": Invalid parity format"]
          | none => [path_str ++ chars ": Invalid parity format"]
        else [path_str ++ chars ": Missing parity check"]
      else []
    .ok (crcErrs ++ parityErrs)
  | _ => .error ()

mutual
/-- `validate_encoding_instructions(data, schema, path, errors)`: the errors
accumulated over a pre-order walk, with the directive for the current path
computed first (its exceptions propagate even at container nodes); only
string scalars under a truthy directive are checked. -/
def validate_encoding_instructions (data schema : Value) (path : List (List Char)) :
    Except Unit (List (List Char)) :=
  match get_encoding_instructions schema path with
  | .error e => .error e
  | .ok encoding =>
    match data with
    | .vdict es => validateEncEntries es schema path
    | .vlist xs => validateEncItems xs schema path 0
    | .vstr s =>
      match encoding with
      | some inst => if truthy inst then scalarEncErrors s inst path else .ok []
      | none => .ok []
    | _ => .ok []
/-- The entry walk of `validate_encoding_instructions`. -/
def validateEncEntries (es : EntrySeq) (schema : Value) (path : List (List Char)) :
    Except Unit (List (List Char)) :=
  match es with
  | .nil => .ok []
  | .cons k v rest =>
    match validate_encoding_instructions v schema (path ++ [k]) with
    | .error e => .error e
    | .ok e1 =>
      match validateEncEntries rest schema path with
      | .error e => .error e
      | .ok e2 => .ok (e1 ++ e2)
/-- The item walk of `validate_encoding_instructions`. -/
def validateEncItems (xs : ValueSeq) (schema : Value) (path : List (List Char)) (i : Nat) :
    Except Unit (List (List Char)) :=
  match xs with
  | .nil => .ok []
  | .cons v rest =>
    match validate_encoding_instructions v schema (path ++ [natStr i]) with
    | .error e => .error e
    | .ok e1 =>
      match validateEncItems rest schema path (i + 1) with
      | .error e => .error e
      | .ok e2 => .ok (e1 ++ e2)
end

/-- A value is a scalar (not a dict, not a list). -/
def isScalar : Value → Bool
  | .vdict _ => false
  | .vlist _ => false
  | _ => true

/-- A value is a string. -/
def isStr : Value → Bool
  | .vstr _ => true
  | _ => false

mutual
/-- Same skeleton: mapping keys agree in set and order, sequences agree in
length and order, string leaves stay string leaves, every other leaf is
unchanged. -/
def sameSkel : Value → Value → Bool
  | .vdict es, .vdict es2 => sameSkelE es es2
  | .vlist xs, .vlist xs2 => sameSkelL xs xs2
  | .vstr _, .vstr _ => true
  | a, b => decide (a = b)
/-- `sameSkel` over entries. -/
def sameSkelE : EntrySeq → EntrySeq → Bool
  | .nil, .nil => true
  | .cons k v r, .cons k2 v2 r2 => decide (k = k2) && sameSkel v v2 && sameSkelE r r2
  | _, _ => false
/-- `sameSkel` over items. -/
def sameSkelL : ValueSeq → ValueSeq → Bool
  | .nil, .nil => true
  | .cons v r, .cons v2 r2 => sameSkel v v2 && sameSkelL r r2
  | _, _ => false
end

theorem validate_crc32_of_no_marker (s : List Char)
    (he : (extract_crc32 s).1 = none) : validate_crc32 s = (true, none) := by
  unfold validate_crc32
  cases hx : extract_crc32 s with
  | mk a b =>
    rw [hx] at he
    have ha : a = none := he
    subst ha
    rfl

theorem validateEnc_vstr (schema : Value) (inst : EntrySeq) (s : List Char)
    (p : List (List Char))
    (hg : get_encoding_instructions schema p = .ok (some (.vdict inst)))
    (ht : truthy (.vdict inst) = true) :
    validate_encoding_instructions (.vstr s) schema p = scalarEncErrors s (.vdict inst) p := by
  unfold validate_encoding_instructions
  rw [hg]
  show (if truthy (.vdict inst) = true then scalarEncErrors s (.vdict inst) p
    else .ok []) = scalarEncErrors s (.vdict inst) p
  rw [if_pos ht]

/-- C8 (amended): in `validate_encoding_instructions`, absence handling is
asymmetric, but the parity side is keyed to OCCURRENCE of `[parity:` rather
than to a suffix: under a truthy dict directive on a string leaf, (1) a crc32
flag with no crc32 marker in the value reports nothing; (2) a parity flag
with no occurrence of `[parity:` anywhere in the value reports a
missing-parity error; (3) a parity flag whose last `[parity:` occurrence
parses to an integer that differs from the parity of the text before the
occurrence reports a parity-check failure; (4) one whose digits do not parse
with `int()` reports an invalid-format error. -/
theorem validate_encoding_absence_asymmetry_amended :
    (∀ (schema : Value) (inst : EntrySeq) (s : List Char),
      get_encoding_instructions schema [] = .ok (some (.vdict inst)) →
      truthy (.vdict inst) = true →
      optTruthy (findEntry inst (chars "crc32")) = true →
      optTruthy (findEntry inst (chars "parity")) = false →
      (extract_crc32 s).1 = none →
      validate_encoding_instructions (.vstr s) schema [] = .ok []) ∧
    (∀ (schema : Value) (inst : EntrySeq) (s : List Char),
      get_encoding_instructions schema [] = .ok (some (.vdict inst)) →
      truthy (.vdict inst) = true →
      optTruthy (findEntry inst (chars "crc32")) = false →
      optTruthy (findEntry inst (chars "parity")) = true →
      substrOf (chars "[parity:") s = false →
      validate_encoding_instructions (.vstr s) schema []
        = .ok [chars "root: Missing parity check"]) ∧
    (∀ (schema : Value) (inst : EntrySeq) (s : List Char) (i : Nat) (n : Int),
      get_encoding_instructions schema [] = .ok (some (.vdict inst)) →
      truthy (.vdict inst) = true →
      optTruthy (findEntry inst (chars "crc32")) = false →
      optTruthy (findEntry inst (chars "parity")) = true →
      substrOf (chars "[parity:") s = true →
      pyRfind (chars "[parity:") s = some i →
      pyInt ((splitOnChar ']' (s.drop (i + 8))).headD []) = some n →
      validate_parity (s.take i) n = false →
      validate_encoding_instructions (.vstr s) schema []
        = .ok [chars "root: Parity check failed"]) ∧
    (∀ (schema : Value) (inst : EntrySeq) (s : List Char) (i : Nat),
      get_encoding_instructions schema [] = .ok (some (.vdict inst)) →
      truthy (.vdict inst) = true →
      optTruthy (findEntry inst (chars "crc32")) = false →
      optTruthy (findEntry inst (chars "parity")) = true →
      substrOf (chars "[parity:") s = true →
      pyRfind (chars "[parity:") s = some i →
      pyInt ((splitOnChar ']' (s.drop (i + 8))).headD []) = none →
      validate_encoding_instructions (.vstr s) schema []
        = .ok [chars "root: Invalid parity format"]) := by
  refine ⟨?_, ?_, ?_, ?_⟩
  · intro schema inst s hg ht hc hp he
    rw [validateEnc_vstr schema inst s [] hg ht]
    simp only [scalarEncErrors]
    rw [hc, hp, validate_crc32_of_no_marker s he]
    rfl
  · intro schema inst s hg ht hc hp hsub
    rw [validateEnc_vstr schema inst s [] hg ht]
    simp only [scalarEncErrors]
    rw [hc, hp, hsub]
    rfl
  · intro schema inst s i n hg ht hc hp hsub hrf hint hvp
    rw [validateEnc_vstr schema inst s [] hg ht]
    simp only [scalarEncErrors]
    rw [hc, hp, hsub]
    simp only [hrf, hint, hvp]
    rfl
  · intro schema inst s i hg ht hc hp hsub hrf hint
    rw [validateEnc_vstr schema inst s [] hg ht]
    simp only [scalarEncErrors]
    rw [hc, hp, hsub]
    simp only [hrf, hint]
    rfl

/-- Decidable equality for the exception channel. -/
instance instDecEqExcept {ε α : Type} [DecidableEq ε] [DecidableEq α] :
    DecidableEq (Except ε α) := fun a b =>
  match a, b with
  | .error e1, .error e2 =>
    if h : e1 = e2 then isTrue (by rw [h]) else isFalse (fun hc => h (Except.error.inj hc))
  | .ok v1, .ok v2 =>
    if h : v1 = v2 then isTrue (by rw [h]) else isFalse (fun hc => h (Except.ok.inj hc))
  | .error _, .ok _ => isFalse (fun hc => Except.noConfusion hc)
  | .ok _, .error _ => isFalse (fun hc => Except.noConfusion hc)

/-- C8 counterexample: the value `"[parity:0]x"` ends in `x`, so it carries
no `[parity:...]` suffix, and its directive sets the parity flag; the claim
demands a missing-parity error, yet `validate_encoding_instructions` reports
NO error at all (the interior `[parity:` occurrence satisfies the check: the
content before it is empty, with parity 0).  A value with no `[parity:`
occurrence at all, by contrast, does get the missing-parity error. -/
theorem validate_encoding_missing_parity_counterexample :
    (chars "[parity:0]x").getLast? = some 'x' ∧
    validate_encoding_instructions (.vstr (chars "[parity:0]x"))
      (.vdict (.cons (chars "x-encoding")
        (.vdict (.cons (chars "parity") (.vbool true) .nil)) .nil)) [] = .ok [] ∧
    validate_encoding_instructions (.vstr (chars "no marker here"))
      (.vdict (.cons (chars "x-encoding")
        (.vdict (.cons (chars "parity") (.vbool true) .nil)) .nil)) []
      = .ok [chars "root: Missing parity check"] := by
  decide

/-- Witness for C8's amended theorem at concrete schemas and values: a crc32
directive with an unmarked value reports nothing; a parity directive reports
missing / failed / invalid on `"plain"`, `"a[parity:0]"`, `"a[parity:x]"`. -/
theorem validate_encoding_absence_asymmetry_amended_witness :
    validate_encoding_instructions (.vstr (chars "hello"))
      (.vdict (.cons (chars "x-encoding")
        (.vdict (.cons (chars "crc32") (.vbool true) .nil)) .nil)) [] = .ok [] ∧
    validate_encoding_instructions (.vstr (chars "plain"))
      (.vdict (.cons (chars "x-encoding")
        (.vdict (.cons (chars "parity") (.vbool true) .nil)) .nil)) []
      = .ok [chars "root: Missing parity check"] ∧
    validate_encoding_instructions (.vstr (chars "a[parity:0]"))
      (.vdict (.cons (chars "x-encoding")
        (.vdict (.cons (chars "parity") (.vbool true) .nil)) .nil)) []
      = .ok [chars "root: Parity check failed"] ∧
    validate_encoding_instructions (.vstr (chars "a[parity:x]"))
      (.vdict (.cons (chars "x-encoding")
        (.vdict (.cons (chars "parity") (.vbool true) .nil)) .nil)) []
      = .ok [chars "root: Invalid parity format"] := by
  have h := validate_encoding_absence_asymmetry_amended
  refine ⟨?_, ?_, ?_, ?_⟩
  · exact h.1 (.vdict (.cons (chars "x-encoding")
      (.vdict (.cons (chars "crc32") (.vbool true) .nil)) .nil))
      (.cons (chars "crc32") (.vbool true) .nil) (chars "hello")
      (by decide) (by decide) (by decide) (by decide) (by decide)
  · exact h.2.1 (.vdict (.cons (chars "x-encoding")
      (.vdict (.cons (chars "parity") (.vbool true) .nil)) .nil))
      (.cons (chars "parity") (.vbool true) .nil) (chars "plain")
      (by decide) (by decide) (by decide) (by decide) (by decide)
  · exact h.2.2.1 (.vdict (.cons (chars "x-encoding")
      (.vdict (.cons (chars "parity") (.vbool true) .nil)) .nil))
      (.cons (chars "parity") (.vbool true) .nil) (chars "a[parity:0]") 1 0
      (by decide) (by decide) (by decide) (by decide) (by decide) (by decide)
      (by decide) (by decide)
  · exact h.2.2.2 (.vdict (.cons (chars "x-encoding")
      (.vdict (.cons (chars "parity") (.vbool true) .nil)) .nil))
      (.cons (chars "parity") (.vbool true) .nil) (chars "a[parity:x]") 1
      (by decide) (by decide) (by decide) (by decide) (by decide) (by decide)
      (by decide)

theorem scalar_branch_out_nonstr (data : Value) (encoding : Option Value) (out : Value)
    (hns : isStr data = false)
    (h : (match encoding with
          | some inst => if truthy inst then apply_encoding_instruction data inst
                         else Except.ok data
          | none => Except.ok data) = Except.ok out) : out = data := by
  cases encoding with
  | none => exact (Except.ok.inj h).symm
  | some inst =>
    have h2 : (if truthy inst = true then apply_encoding_instruction data inst
               else Except.ok data) = Except.ok out := h
    by_cases ht : truthy inst = true
    · rw [if_pos ht] at h2
      cases data with
      | vstr s => exact Bool.noConfusion hns
      | vnull => exact (Except.ok.inj h2).symm
      | vbool b => exact (Except.ok.inj h2).symm
      | vint n => exact (Except.ok.inj h2).symm
      | vfloat f => exact (Except.ok.inj h2).symm
      | vdict es => exact (Except.ok.inj h2).symm
      | vlist xs => exact (Except.ok.inj h2).symm
    · rw [if_neg ht] at h2
      exact (Except.ok.inj h2).symm

theorem scalar_branch_out_str (s : List Char) (encoding : Option Value) (out : Value)
    (h : (match encoding with
          | some inst => if truthy inst then apply_encoding_instruction (.vstr s) inst
                         else Except.ok (.vstr s)
          | none => Except.ok (.vstr s)) = Except.ok out) : ∃ r, out = .vstr r := by
  cases encoding with
  | none => exact ⟨s, (Except.ok.inj h).symm⟩
  | some inst =>
    have h2 : (if truthy inst = true then apply_encoding_instruction (.vstr s) inst
               else Except.ok (.vstr s)) = Except.ok out := h
    by_cases ht : truthy inst = true
    · rw [if_pos ht] at h2
      cases inst <;> first
        | exact Except.noConfusion h2
        | exact ⟨_, (Except.ok.inj h2).symm⟩
    · rw [if_neg ht] at h2
      exact ⟨s, (Except.ok.inj h2).symm⟩

theorem applyEnc_frame_nonstr_scalar (data schema : Value) (p : List (List Char)) (out : Value)
    (hsc : isScalar data = true) (hns : isStr data = false)
    (hself : sameSkel data data = true)
    (h : apply_encoding_instructions data schema p = .ok out) :
    sameSkel data out = true ∧
    ∀ (q : List (List Char)) (v : Value), getPath data q = some v → isScalar v = true →
      (isStr v = false ∨ get_encoding_instructions schema (p ++ q) = .ok none) →
      getPath out q = some v := by
  unfold apply_encoding_instructions at h
  cases hg : get_encoding_instructions schema p with
  | error e =>
    rw [hg] at h
    exact Except.noConfusion h
  | ok encoding =>
    rw [hg] at h
    have hmain : (match encoding with
        | some inst => if truthy inst then apply_encoding_instruction data inst
                       else Except.ok data
        | none => Except.ok data) = Except.ok out := by
      cases data with
      | vdict es => exact Bool.noConfusion hsc
      | vlist xs => exact Bool.noConfusion hsc
      | vnull => exact h
      | vbool b => exact h
      | vint n => exact h
      | vfloat f => exact h
      | vstr s => exact h
    have hout : out = data := scalar_branch_out_nonstr data encoding out hns hmain
    subst hout
    refine ⟨hself, ?_⟩
    intro q v hget _ _
    exact hget

theorem applyEnc_frame_vstr (s : List Char) (schema : Value) (p : List (List Char)) (out : Value)
    (h : apply_encoding_instructions (.vstr s) schema p = .ok out) :
    sameSkel (.vstr s) out = true ∧
    ∀ (q : List (List Char)) (v : Value), getPath (.vstr s) q = some v → isScalar v = true →
      (isStr v = false ∨ get_encoding_instructions schema (p ++ q) = .ok none) →
      getPath out q = some v := by
  unfold apply_encoding_instructions at h
  cases hg : get_encoding_instructions schema p with
  | error e =>
    rw [hg] at h
    exact Except.noConfusion h
  | ok encoding =>
    rw [hg] at h
    have hmain : (match encoding with
        | some inst => if truthy inst then apply_encoding_instruction (.vstr s) inst
                       else Except.ok (.vstr s)
        | none => Except.ok (.vstr s)) = Except.ok out := h
    refine ⟨?_, ?_⟩
    · obtain ⟨r, hr⟩ := scalar_branch_out_str s encoding out hmain
      rw [hr]
      rfl
    · intro q v hget hscv hcond
      cases q with
      | cons k rest => exact Option.noConfusion hget
      | nil =>
        rw [getPath_nil] at hget
        have hv : Value.vstr s = v := Option.some.inj hget
        rcases hcond with hns | hno
        · rw [← hv] at hns
          exact Bool.noConfusion hns
        · rw [List.append_nil, hg] at hno
          have he : encoding = none := Except.ok.inj hno
          subst he
          have ho : Value.vstr s = out := Except.ok.inj hmain
          rw [getPath_nil, ← ho, hv]

mutual
/-- Frame property of `apply_encoding_instructions` below prefix `p`: the
skeleton is preserved, and every scalar leaf that is not a string, or whose
full path carries no directive, is returned unchanged. -/
theorem applyEnc_frame : ∀ (data schema : Value) (p : List (List Char)) (out : Value),
    apply_encoding_instructions data schema p = .ok out →
    sameSkel data out = true ∧
    ∀ (q : List (List Char)) (v : Value), getPath data q = some v → isScalar v = true →
      (isStr v = false ∨ get_encoding_instructions schema (p ++ q) = .ok none) →
      getPath out q = some v
  | .vnull, schema, p, out, h =>
    applyEnc_frame_nonstr_scalar .vnull schema p out rfl rfl (by decide) h
  | .vbool b, schema, p, out, h =>
    applyEnc_frame_nonstr_scalar (.vbool b) schema p out rfl rfl (by simp [sameSkel]) h
  | .vint n, schema, p, out, h =>
    applyEnc_frame_nonstr_scalar (.vint n) schema p out rfl rfl (by simp [sameSkel]) h
  | .vfloat f, schema, p, out, h =>
    applyEnc_frame_nonstr_scalar (.vfloat f) schema p out rfl rfl (by simp [sameSkel]) h
  | .vstr s, schema, p, out, h => applyEnc_frame_vstr s schema p out h
  | .vdict es, schema, p, out, h => by
    unfold apply_encoding_instructions at h
    cases hg : get_encoding_instructions schema p with
    | error e =>
      rw [hg] at h
      exact Except.noConfusion h
    | ok encoding =>
      rw [hg] at h
      have h2 : (match applyEncEntries es schema p with
          | Except.error e => Except.error e
          | Except.ok es2 => Except.ok (Value.vdict es2)) = Except.ok out := h
      cases he : applyEncEntries es schema p with
      | error e =>
        rw [he] at h2
        exact Except.noConfusion h2
      | ok es2 =>
        rw [he] at h2
        have hout : Value.vdict es2 = out := Except.ok.inj h2
        subst hout
        have ih := applyEnc_frameE es schema p es2 he
        refine ⟨ih.1, ?_⟩
        intro q v hget hscv hcond
        cases q with
        | nil =>
          rw [getPath_nil] at hget
          have hv : Value.vdict es = v := Option.some.inj hget
          rw [← hv] at hscv
          exact Bool.noConfusion hscv
        | cons k rest => exact ih.2 k rest v hget hscv hcond
  | .vlist xs, schema, p, out, h => by
    unfold apply_encoding_instructions at h
    cases hg : get_encoding_instructions schema p with
    | error e =>
      rw [hg] at h
      exact Except.noConfusion h
    | ok encoding =>
      rw [hg] at h
      have h2 : (match applyEncItems xs schema p 0 with
          | Except.error e => Except.error e
          | Except.ok xs2 => Except.ok (Value.vlist xs2)) = Except.ok out := h
      cases he : applyEncItems xs schema p 0 with
      | error e =>
        rw [he] at h2
        exact Except.noConfusion h2
      | ok xs2 =>
        rw [he] at h2
        have hout : Value.vlist xs2 = out := Except.ok.inj h2
        subst hout
        have ih := applyEnc_frameL xs schema p 0 xs2 he
        refine ⟨ih.1, ?_⟩
        intro q v hget hscv hcond
        cases q with
        | nil =>
          rw [getPath_nil] at hget
          have hv : Value.vlist xs = v := Option.some.inj hget
          rw [← hv] at hscv
          exact Bool.noConfusion hscv
        | cons k rest => exact ih.2 k rest v hget hscv hcond
/-- `applyEnc_frame` over a mapping's entries. -/
theorem applyEnc_frameE : ∀ (es : EntrySeq) (schema : Value) (p : List (List Char)) (out : EntrySeq),
    applyEncEntries es schema p = .ok out →
    sameSkelE es out = true ∧
    ∀ (k : List Char) (rest : List (List Char)) (v : Value),
      getPathE es k rest = some v → isScalar v = true →
      (isStr v = false ∨ get_encoding_instructions schema (p ++ k :: rest) = .ok none) →
      getPathE out k rest = some v
  | .nil, schema, p, out, h => by
    have hout : EntrySeq.nil = out := Except.ok.inj h
    subst hout
    refine ⟨rfl, ?_⟩
    intro k rest v hget _ _
    exact Option.noConfusion hget
  | .cons k0 v0 r, schema, p, out, h => by
    unfold applyEncEntries at h
    cases h1 : apply_encoding_instructions v0 schema (p ++ [k0]) with
    | error e =>
      rw [h1] at h
      exact Except.noConfusion h
    | ok v2 =>
      rw [h1] at h
      cases h2 : applyEncEntries r schema p with
      | error e =>
        rw [h2] at h
        exact Except.noConfusion h
      | ok r2 =>
        rw [h2] at h
        have hout : EntrySeq.cons k0 v2 r2 = out := Except.ok.inj h
        subst hout
        have ih1 := applyEnc_frame v0 schema (p ++ [k0]) v2 h1
        have ih2 := applyEnc_frameE r schema p r2 h2
        refine ⟨?_, ?_⟩
        · show (decide (k0 = k0) && sameSkel v0 v2 && sameSkelE r r2) = true
          rw [ih1.1, ih2.1]
          simp
        · intro k rest v hget hscv hcond
          have hget2 : (if k0 = k then getPath v0 rest else getPathE r k rest) = some v := hget
          show (if k0 = k then getPath v2 rest else getPathE r2 k rest) = some v
          by_cases hk : k0 = k
          · rw [if_pos hk]
            rw [if_pos hk] at hget2
            refine ih1.2 rest v hget2 hscv ?_
            rcases hcond with hns | hno
            · exact Or.inl hns
            · refine Or.inr ?_
              rw [← List.append_cons, hk]
              exact hno
          · rw [if_neg hk]
            rw [if_neg hk] at hget2
            exact ih2.2 k rest v hget2 hscv hcond
/-- `applyEnc_frame` over a sequence's items. -/
theorem applyEnc_frameL : ∀ (xs : ValueSeq) (schema : Value) (p : List (List Char)) (i : Nat)
    (out : ValueSeq),
    applyEncItems xs schema p i = .ok out →
    sameSkelL xs out = true ∧
    ∀ (k : List Char) (rest : List (List Char)) (v : Value),
      getPathL xs i k rest = some v → isScalar v = true →
      (isStr v = false ∨ get_encoding_instructions schema (p ++ k :: rest) = .ok none) →
      getPathL out i k rest = some v
  | .nil, schema, p, i, out, h => by
    have hout : ValueSeq.nil = out := Except.ok.inj h
    subst hout
    refine ⟨rfl, ?_⟩
    intro k rest v hget _ _
    exact Option.noConfusion hget
  | .cons v0 r, schema, p, i, out, h => by
    unfold applyEncItems at h
    cases h1 : apply_encoding_instructions v0 schema (p ++ [natStr i]) with
    | error e =>
      rw [h1] at h
      exact Except.noConfusion h
    | ok v2 =>
      rw [h1] at h
      cases h2 : applyEncItems r schema p (i + 1) with
      | error e =>
        rw [h2] at h
        exact Except.noConfusion h
      | ok r2 =>
        rw [h2] at h
        have hout : ValueSeq.cons v2 r2 = out := Except.ok.inj h
        subst hout
        have ih1 := applyEnc_frame v0 schema (p ++ [natStr i]) v2 h1
        have ih2 := applyEnc_frameL r schema p (i + 1) r2 h2
        refine ⟨?_, ?_⟩
        · show (sameSkel v0 v2 && sameSkelL r r2) = true
          rw [ih1.1, ih2.1]
          rfl
        · intro k rest v hget hscv hcond
          have hget2 : (if natStr i = k then getPath v0 rest
            else getPathL r (i + 1) k rest) = some v := hget
          show (if natStr i = k then getPath v2 rest
            else getPathL r2 (i + 1) k rest) = some v
          by_cases hk : natStr i = k
          · rw [if_pos hk]
            rw [if_pos hk] at hget2
            refine ih1.2 rest v hget2 hscv ?_
            rcases hcond with hns | hno
            · exact Or.inl hns
            · refine Or.inr ?_
              rw [← List.append_cons, hk]
              exact hno
          · rw [if_neg hk]
            rw [if_neg hk] at hget2
            exact ih2.2 k rest v hget2 hscv hcond
end

/-- C10: `apply_encoding_instructions` changes only string leaves whose path
resolves to an x-encoding directive: whenever it returns a value, mapping
keys (set and order) and sequence lengths and order are unchanged throughout
(string leaves stay string leaves, all other leaves stay equal), and every
scalar leaf that is not a string, or whose path yields no directive, appears
in the output exactly equal to its input value. -/
theorem apply_encoding_instructions_frame :
    ∀ (data schema out : Value),
      apply_encoding_instructions data schema [] = .ok out →
      sameSkel data out = true ∧
      ∀ (q : List (List Char)) (v : Value),
        getPath data q = some v → isScalar v = true →
        (isStr v = false ∨ get_encoding_instructions schema q = .ok none) →
        getPath out q = some v := by
  intro data schema out h
  refine ⟨(applyEnc_frame data schema [] out h).1, ?_⟩
  intro q v hget hscv hcond
  refine (applyEnc_frame data schema [] out h).2 q v hget hscv ?_
  rcases hcond with hns | hno
  · exact Or.inl hns
  · refine Or.inr ?_
    rw [List.nil_append]
    exact hno

/-- Witness for C10 at a concrete tree and schema: a crc32 directive on key
`a` rewrites that string, while the key list survives and the undirected
leaf under `b` is unchanged. -/
theorem apply_encoding_instructions_frame_witness :
    sameSkel
      (.vdict (.cons (chars "a") (.vstr (chars "hi"))
        (.cons (chars "b") (.vint 7) .nil)))
      (.vdict (.cons (chars "a") (.vstr (add_crc32 (chars "hi")))
        (.cons (chars "b") (.vint 7) .nil))) = true ∧
    getPath (.vdict (.cons (chars "a") (.vstr (add_crc32 (chars "hi")))
        (.cons (chars "b") (.vint 7) .nil))) [chars "b"] = some (.vint 7) := by
  have h := apply_encoding_instructions_frame
    (.vdict (.cons (chars "a") (.vstr (chars "hi"))
      (.cons (chars "b") (.vint 7) .nil)))
    (.vdict (.cons (chars "properties") (.vdict (.cons (chars "a")
      (.vdict (.cons (chars "x-encoding")
        (.vdict (.cons (chars "crc32") (.vbool true) .nil)) .nil)) .nil)) .nil))
    (.vdict (.cons (chars "a") (.vstr (add_crc32 (chars "hi")))
      (.cons (chars "b") (.vint 7) .nil)))
    (by decide)
  exact ⟨h.1, h.2 [chars "b"] (.vint 7) (by decide) (by decide) (Or.inr (by decide))⟩
